import Mathlib

/-!
Verification of the core of `zfs3backup` (a tool that backs up ZFS snapshots
to S3-compatible storage) against its natural-language specification.

The development shallowly embeds the Python sources:
  * `zfs3backup/pput.py`  — the parallel multipart uploader
    (`StreamHandler`, `UploadSupervisor`, `multipart_etag`,
    `optimize_chunksize`, `main`);
  * `zfs3backup/snap.py`  — the snapshot-chain manager
    (`S3Snapshot._is_healthy`, `PairManager.backup_incremental`,
    `PairManager.restore`, `PairManager._pput_cmd`, `PairManager._decompress`).

Modelling conventions:
  * bytes are `Nat` values (< 256 where it matters);
  * the MD5 primitive from `hashlib` is an external collaborator and is
    modelled as an abstract function parameter `md5 : List Nat → List Nat`
    giving the raw 16-byte digest of a byte string;
  * Python's `float` arithmetic in `optimize_chunksize` is modelled with
    exact rational arithmetic (`ℚ`), and Python `int()` on the positive
    values occurring there is `Int.floor`;
  * the thread scheduler and the worker pool of the uploader are modelled
    by an explicit schedule (per-iteration worker liveness and the list of
    results that arrived in the inbox), and the supervisor's `main_loop`
    becomes a fuel-indexed step function over that schedule;
  * blocking reads from the input stream are modelled by a read-size
    oracle `rsz`, so that short reads (pipes) are covered.
-/

namespace Zfs3backup

/-! ### Hex encoding (binascii.a2b_hex and md5.hexdigest) -/

/-- Lowercase hex digit, as produced by Python's `md5.hexdigest()`. -/
def hexDigitChar (n : Nat) : Char :=
  Char.ofNat (if n < 10 then 48 + n else 87 + n)

/-- Value of a hex digit, as consumed by `binascii.a2b_hex`. -/
def hexVal (c : Char) : Nat :=
  if 97 ≤ c.toNat then c.toNat - 87
  else if 65 ≤ c.toNat then c.toNat - 55
  else c.toNat - 48

/-- Hex-encode a byte string (two lowercase digits per byte). -/
def toHexChars : List Nat → List Char
  | [] => []
  | b :: bs => hexDigitChar (b / 16) :: hexDigitChar (b % 16) :: toHexChars bs

/-- Model of `md5.hexdigest()` applied to a raw digest. -/
def toHexStr (bs : List Nat) : String :=
  String.mk (toHexChars bs)

/-- Model of `binascii.a2b_hex` on the character data of a string: consume
the characters two at a time, producing one byte per pair. -/
def a2bHexChars : List Char → List Nat
  | c1 :: c2 :: rest => (hexVal c1 * 16 + hexVal c2) :: a2bHexChars rest
  | _ => []

/-- Model of `binascii.a2b_hex`. -/
def a2b_hex (s : String) : List Nat :=
  a2bHexChars s.data

theorem hexVal_hexDigitChar {n : Nat} (h : n < 16) :
    hexVal (hexDigitChar n) = n := by
  interval_cases n <;> rfl

theorem a2bHexChars_toHexChars {bs : List Nat} (h : ∀ b ∈ bs, b < 256) :
    a2bHexChars (toHexChars bs) = bs := by
  induction bs with
  | nil => rfl
  | cons b bs ih =>
    have hb : b < 256 := h b (List.mem_cons_self b bs)
    have h1 : b / 16 < 16 := by omega
    have h2 : b % 16 < 16 := Nat.mod_lt _ (by omega)
    simp only [toHexChars, a2bHexChars, hexVal_hexDigitChar h1, hexVal_hexDigitChar h2,
      ih fun x hx => h x (List.mem_cons_of_mem _ hx)]
    congr 1
    omega

theorem a2b_hex_toHexStr {bs : List Nat} (h : ∀ b ∈ bs, b < 256) :
    a2b_hex (toHexStr bs) = bs :=
  a2bHexChars_toHexChars h

/-! ### multipart_etag (pput.py lines 47-61)

`multipart_etag` walks the list of hex digests, counts them, feeds the
de-hexed raw bytes into a running MD5, and formats
`'<hexdigest>-<count>'` (the single quotes are part of the returned
string in the source).  Feeding chunks into a running MD5 equals hashing
the concatenation, so the abstract `md5` is applied to the joined bytes. -/

def multipart_etag (md5 : List Nat → List Nat) (digests : List String) : String :=
  "\x27" ++ toHexStr (md5 (digests.map a2b_hex).flatten) ++ "-" ++
    toString digests.length ++ "\x27"

/-! ### optimize_chunksize (pput.py lines 301-306)

Source:
```
max_parts = 9999
estimated = estimated * 1.05
min_part_size = max(estimated / max_parts, 10*1024*1024)
return int(min_part_size)
```
The float arithmetic is modelled exactly over `ℚ`; the argument of
`int()` is at least `10*1024*1024 > 0`, so `int()` (truncation towards
zero) is `Int.floor`. -/

def optimize_chunksize (estimated : ℚ) : ℤ :=
  Int.floor (max (estimated * 1.05 / 9999) (10 * 1024 * 1024 : ℚ))

/-- C7 counterexample.  The claim asserts `chunk × 9999 ≥ 1.05 × E` for every
estimated size `E`.  At `E = 99980000000` (about 100 GB) the exact value
`1.05 × E / 9999 = 34993000000/3333` is not an integer, truncation loses its
fractional part, and the product `10498949 × 9999 = 104978991051` falls short
of `1.05 × E = 104979000000`. -/
theorem optimize_chunksize_spec_bound_fails :
    ¬ ((optimize_chunksize 99980000000 : ℚ) * 9999 ≥ 1.05 * 99980000000) := by
  have hmax : max ((99980000000 : ℚ) * 1.05 / 9999) (10 * 1024 * 1024 : ℚ) =
      (99980000000 : ℚ) * 1.05 / 9999 := by
    rw [max_eq_left]
    norm_num
  have hfl : optimize_chunksize 99980000000 = 10498949 := by
    unfold optimize_chunksize
    rw [hmax, Int.floor_eq_iff]
    norm_num
  rw [hfl]
  norm_num

/-- C7 (amended).  `optimize_chunksize` truncates
`max(E × 1.05 / 9999, 10 MiB)` to an integer, so the result is always at
least 10 MiB, but the 9999-part bound only holds up to the truncation loss:
`chunk × 9999 > 1.05 × E − 9999` (rather than `chunk × 9999 ≥ 1.05 × E` as
claimed). -/
theorem optimize_chunksize_bounds (E : ℚ) :
    10485760 ≤ optimize_chunksize E ∧
    1.05 * E - 9999 < (optimize_chunksize E : ℚ) * 9999 := by
  constructor
  · rw [optimize_chunksize, Int.le_floor]
    calc ((10485760 : ℤ) : ℚ) = (10 * 1024 * 1024 : ℚ) := by norm_num
    _ ≤ _ := le_max_right _ _
  · have h1 : E * 1.05 / 9999 ≤ max (E * 1.05 / 9999) (10 * 1024 * 1024 : ℚ) :=
      le_max_left _ _
    have h2 := Int.sub_one_lt_floor (max (E * 1.05 / 9999) (10 * 1024 * 1024 : ℚ))
    rw [optimize_chunksize]
    have h3 : E * 1.05 / 9999 - 1 <
        ((Int.floor (max (E * 1.05 / 9999) (10 * 1024 * 1024 : ℚ)) : ℤ) : ℚ) := by
      linarith
    have h9 : (0 : ℚ) < 9999 := by norm_num
    have := (div_lt_iff₀ h9).mp (by
      have : (E * 1.05 - 9999) / 9999 = E * 1.05 / 9999 - 1 := by ring
      rw [this]
      exact h3)
    linarith

/-! ### Remote snapshot catalog and lineage health (snap.py lines 60-151)

`S3SnapshotManager._snapshots` is a dict from stripped object name to
`S3Snapshot`; it is modelled as an association list `Catalog`.  The
snapshot's user metadata dict is modelled by `Meta`, keeping exactly the
keys `S3Snapshot` reads (`is_full`, `isfull`, `parent`, `compressor`);
an absent key is `none`. -/

structure Meta where
  is_full : Option String
  isfull : Option String
  parent : Option String
  compressor : Option String
deriving DecidableEq

abbrev Catalog := List (String × Meta)

/-- Model of `S3Snapshot.is_full` (snap.py line 81):
`'true' in [metadata.get('is_full'), metadata.get('isfull')]`. -/
def Meta.isFull (m : Meta) : Bool :=
  (m.is_full == some "true") || (m.isfull == some "true")

/-- Model of the `S3Snapshot.parent` property (snap.py lines 84-86):
`self._mgr.get(self._metadata.get('parent'))`, where looking up `None`
yields `None`.  The pair returned carries the parent's name together with
its metadata. -/
def parentResolve (cat : Catalog) (m : Meta) : Option (String × Meta) :=
  match m.parent with
  | none => none
  | some p =>
    match cat.lookup p with
    | none => none
    | some pm => some (p, pm)

/-- Lineage health classification.  `S3Snapshot._is_healthy` returns a Bool
and records `_reason_broken`; both are combined into one value, `healthy`
standing for `True`. -/
inductive Health where
  | healthy
  | cycle
  | missingParent
  | parentBroken
deriving DecidableEq

/-- Fuel-indexed embedding of `S3Snapshot._is_healthy` (snap.py lines
92-107).  The Python recursion terminates because each recursive call adds
a distinct catalog name to `visited`, so the depth of any top-level call is
at most `cat.length + 1`; `is_healthy` supplies exactly that much fuel and
never reaches the fuel-exhaustion branch. -/
def healthF (cat : Catalog) : Nat → List String → String → Meta → Health
  | 0, _, _, _ => .parentBroken
  | fuel + 1, visited, name, m =>
    if m.isFull then .healthy
    else if name ∈ visited then .cycle
    else
      match parentResolve cat m with
      | none => .missingParent
      | some (pn, pm) =>
        match healthF cat fuel (name :: visited) pn pm with
        | .healthy => .healthy
        | .cycle => .cycle
        | _ => .parentBroken

/-- Model of the memoised `S3Snapshot.is_healthy` property for a snapshot
`name` with metadata `m` listed in `cat`. -/
def is_healthy (cat : Catalog) (name : String) (m : Meta) : Health :=
  healthF cat (cat.length + 1) [] name m

/-- Metadata of a full snapshot (only `isfull=true` set). -/
def mFull : Meta := ⟨none, some "true", none, none⟩

/-- Metadata of an incremental snapshot with parent `p`. -/
def mChild (p : String) : Meta := ⟨none, none, some p, none⟩

/-- Catalog with a full root, an orphan increment (its parent `D@b` is not
listed) and a child of the orphan. -/
def catBrokenDemo : Catalog :=
  [("D@a", mFull), ("D@c", mChild "D@b"), ("D@d", mChild "D@c")]

/-- Catalog with a two-element parent cycle and a descendant of it. -/
def catCycleDemo : Catalog :=
  [("D@a", mChild "D@b"), ("D@b", mChild "D@a"), ("D@c", mChild "D@a")]

/-- C6.  The lineage health classification of `_is_healthy` satisfies the
claimed rules: (1) a full snapshot is healthy regardless of parent links;
(2) a non-full snapshot whose named parent is not in the catalog is
`missing_parent`; (3) a walk revisiting an already-visited node yields
`cycle`; (4) `cycle` propagates to descendants; (5) a parent unhealthy for
any non-cycle reason makes the child `parent_broken`.  The last conjunct
evaluates the end-to-end classification on a broken chain and on a cyclic
chain. -/
theorem lineage_health_rules :
    (∀ (cat : Catalog) (fuel : Nat) (visited : List String) (name : String) (m : Meta),
      m.isFull = true → healthF cat (fuel + 1) visited name m = .healthy) ∧
    (∀ (cat : Catalog) (fuel : Nat) (visited : List String) (name : String) (m : Meta)
      (p : String),
      m.isFull = false → name ∉ visited → m.parent = some p → cat.lookup p = none →
      healthF cat (fuel + 1) visited name m = .missingParent) ∧
    (∀ (cat : Catalog) (fuel : Nat) (visited : List String) (name : String) (m : Meta),
      m.isFull = false → name ∈ visited →
      healthF cat (fuel + 1) visited name m = .cycle) ∧
    (∀ (cat : Catalog) (fuel : Nat) (visited : List String) (name : String) (m : Meta)
      (pn : String) (pm : Meta),
      m.isFull = false → name ∉ visited → parentResolve cat m = some (pn, pm) →
      healthF cat fuel (name :: visited) pn pm = .cycle →
      healthF cat (fuel + 1) visited name m = .cycle) ∧
    (∀ (cat : Catalog) (fuel : Nat) (visited : List String) (name : String) (m : Meta)
      (pn : String) (pm : Meta),
      m.isFull = false → name ∉ visited → parentResolve cat m = some (pn, pm) →
      (healthF cat fuel (name :: visited) pn pm = .missingParent ∨
       healthF cat fuel (name :: visited) pn pm = .parentBroken) →
      healthF cat (fuel + 1) visited name m = .parentBroken) ∧
    (is_healthy catBrokenDemo "D@a" mFull = .healthy ∧
     is_healthy catBrokenDemo "D@c" (mChild "D@b") = .missingParent ∧
     is_healthy catBrokenDemo "D@d" (mChild "D@c") = .parentBroken ∧
     is_healthy catCycleDemo "D@a" (mChild "D@b") = .cycle ∧
     is_healthy catCycleDemo "D@b" (mChild "D@a") = .cycle ∧
     is_healthy catCycleDemo "D@c" (mChild "D@a") = .cycle) := by
  refine ⟨?_, ?_, ?_, ?_, ?_, ?_⟩
  · intro cat fuel visited name m hfull
    simp [healthF, hfull]
  · intro cat fuel visited name m p hfull hnv hp hl
    simp [healthF, hfull, hnv, parentResolve, hp, hl]
  · intro cat fuel visited name m hfull hv
    simp [healthF, hfull, hv]
  · intro cat fuel visited name m pn pm hfull hnv hp hcyc
    simp [healthF, hfull, hnv, hp, hcyc]
  · intro cat fuel visited name m pn pm hfull hnv hp hbad
    rcases hbad with hb | hb <;> simp [healthF, hfull, hnv, hp, hb]
  · exact ⟨by decide, by decide, by decide, by decide, by decide, by decide⟩

/-- Witness for C6: the rules applied at concrete inputs. -/
theorem lineage_health_rules_witness :
    healthF catBrokenDemo 3 [] "D@a" mFull = .healthy ∧
    healthF catBrokenDemo 3 [] "D@c" (mChild "D@b") = .missingParent := by
  constructor
  · exact lineage_health_rules.1 catBrokenDemo 2 [] "D@a" mFull (by decide)
  · exact lineage_health_rules.2.1 catBrokenDemo 2 [] "D@c" (mChild "D@b") "D@b"
      (by decide) (by decide) (by decide) (by decide)

/-! ### Upload metadata construction (PairManager._pput_cmd, snap.py 346-354)

`_pput_cmd` builds the list of `key=value` metadata strings passed to the
uploader via repeated `--meta` flags:
```
meta = [f"size={estimated}"]
if parent is None: meta.append("isfull=true")
else:              meta.append(f"parent={parent}")
if self.compressor is not None: meta.append(f"compressor={self.compressor}")
```
-/

def pput_meta (estimated : Nat) (parent : Option String) (comp : Option String) :
    List String :=
  ["size=" ++ toString estimated] ++
    (match parent with
     | none => ["isfull=true"]
     | some p => ["parent=" ++ p]) ++
    (match comp with
     | none => []
     | some c => ["compressor=" ++ c])

theorem str_head_ne {s t : String} {c d : Char} (hs : s.data.head? = some c)
    (ht : t.data.head? = some d) (hcd : c ≠ d) : s ≠ t := by
  intro he
  rw [he, ht] at hs
  exact hcd (Option.some.inj hs).symm

theorem str_append_cancel {a b c : String} : (a ++ b = a ++ c) ↔ b = c := by
  constructor
  · intro h
    have hd := congrArg String.data h
    simp [String.data_append] at hd
    exact String.ext hd
  · intro h
    rw [h]

/-- C9.  The metadata list built by `_pput_cmd` always contains
`size=<estimated>`, contains `isfull=true` exactly when no parent is given,
contains `parent=<p>` exactly when parent `p` is given (so never both), and
contains `compressor=<c>` exactly when compressor `c` is configured. -/
theorem pput_meta_full_xor_parent (est : Nat) (parent comp : Option String) :
    ("size=" ++ toString est ∈ pput_meta est parent comp) ∧
    (("isfull=true" ∈ pput_meta est parent comp) ↔ parent = none) ∧
    (∀ p : String, (("parent=" ++ p) ∈ pput_meta est parent comp) ↔ parent = some p) ∧
    (∀ c : String, (("compressor=" ++ c) ∈ pput_meta est parent comp) ↔ comp = some c) := by
  have hip : ∀ p : String, "isfull=true" ≠ "parent=" ++ p := fun p =>
    @str_head_ne _ _ 'i' 'p' rfl (by simp [String.data_append]) (by decide)
  have his : ∀ x : String, "isfull=true" ≠ "size=" ++ x := fun x =>
    @str_head_ne _ _ 'i' 's' rfl (by simp [String.data_append]) (by decide)
  have hic : ∀ c : String, "isfull=true" ≠ "compressor=" ++ c := fun c =>
    @str_head_ne _ _ 'i' 'c' rfl (by simp [String.data_append]) (by decide)
  have hps : ∀ p x : String, "parent=" ++ p ≠ "size=" ++ x := fun p x =>
    @str_head_ne _ _ 'p' 's' (by simp [String.data_append]) (by simp [String.data_append])
      (by decide)
  have hpi : ∀ p : String, "parent=" ++ p ≠ "isfull=true" := fun p =>
    (hip p).symm
  have hpc : ∀ p c : String, "parent=" ++ p ≠ "compressor=" ++ c := fun p c =>
    @str_head_ne _ _ 'p' 'c' (by simp [String.data_append]) (by simp [String.data_append])
      (by decide)
  have hcs : ∀ c x : String, "compressor=" ++ c ≠ "size=" ++ x := fun c x =>
    @str_head_ne _ _ 'c' 's' (by simp [String.data_append]) (by simp [String.data_append])
      (by decide)
  refine ⟨?_, ?_, ?_, ?_⟩
  · cases parent <;> cases comp <;> simp [pput_meta]
  · cases parent with
    | none =>
      cases comp <;> simp [pput_meta]
    | some p =>
      cases comp with
      | none => simp [pput_meta, his (toString est), hip p]
      | some c => simp [pput_meta, his (toString est), hip p, hic c]
  · intro p
    cases parent with
    | none =>
      cases comp with
      | none => simp [pput_meta, hps p (toString est), hpi p]
      | some c => simp [pput_meta, hps p (toString est), hpi p, hpc p c]
    | some q =>
      cases comp with
      | none => simp [pput_meta, hps p (toString est), str_append_cancel, eq_comm]
      | some c =>
        simp [pput_meta, hps p (toString est), hpc p c, str_append_cancel, eq_comm]
  · intro c
    cases parent with
    | none =>
      cases comp with
      | none => simp [pput_meta, hcs c (toString est), (hic c).symm]
      | some d =>
        simp [pput_meta, hcs c (toString est), (hic c).symm, str_append_cancel, eq_comm]
    | some q =>
      cases comp with
      | none => simp [pput_meta, hcs c (toString est), (hpc q c).symm]
      | some d =>
        simp [pput_meta, hcs c (toString est), (hpc q c).symm, str_append_cancel, eq_comm]

/-! ### backup_incremental (snap.py lines 373-410)

`ZFSSnapshotManager._build_snapshots` lists the local snapshots of one
dataset in creation order and links each snapshot's `parent` to the
immediately preceding entry.  The local chain is modelled as the list `zl`
of full snapshot names in that order (oldest first, already filtered by
the snapshot prefix); the parent of `zl[i]` is `zl[i-1]` and `zl[0]` has
no parent.

`backup_incremental` first resolves the target (`_snapshot_to_backup`),
then walks from the target towards older ancestors collecting locals that
are absent remotely (`to_upload`), stopping at the first name present in
the remote catalog (raising `IntegrityError` if that snapshot is
unhealthy), and finally iterates over `reversed(to_upload)` running one
dry-send (size estimation) and one `zfs send -i parent | ... | pput`
pipeline per snapshot.  The estimated size of the dry-send is modelled by
the oracle `est`.  Note the upload loop reads `z_snap.parent.name`, which
is an `AttributeError` when the oldest collected local has no parent. -/

inductive BErr where
  | softError
  | exception
  | integrityError
  | attributeError
deriving DecidableEq

/-- One upload performed by the loop: the snapshot sent, the parent used in
`zfs send -i '<parent>' '<name>'`, and the metadata handed to `pput`. -/
structure UploadItem where
  snapName : String
  parentName : String
  meta : List String
deriving DecidableEq

/-- Path from a target snapshot back through its local ancestors,
newest-first: `chainToAux [] zl n` is `some (n :: older-ancestors)` when
`n` occurs in `zl`, and `none` otherwise (models the lookup in
`_snapshot_to_backup` together with the implicit parent links). -/
def chainToAux (acc : List String) : List String → String → Option (List String)
  | [], _ => none
  | x :: rest, n => if x = n then some (x :: acc) else chainToAux (x :: acc) rest n

/-- The collection loop of `backup_incremental` (snap.py lines 379-392) on
the newest-first ancestor path.  Each collected snapshot is paired with its
local parent's name (`none` for the chain root). -/
def walkUp (cat : Catalog) : List String → Except BErr (List (String × Option String))
  | [] => .ok []
  | [name] =>
    match cat.lookup name with
    | some m =>
      if is_healthy cat name m = .healthy then .ok [] else .error .integrityError
    | none => .ok [(name, none)]
  | name :: p :: tail =>
    match cat.lookup name with
    | some m =>
      if is_healthy cat name m = .healthy then .ok [] else .error .integrityError
    | none => (walkUp cat (p :: tail)).map (fun tu => (name, some p) :: tu)

/-- The upload loop of `backup_incremental` (snap.py lines 393-409), run on
`reversed(to_upload)` (oldest first).  Reading `.name` on an absent parent
is the `AttributeError` of `z_snap.parent.name`. -/
def buildUploads (est : String → Nat) (comp : Option String) :
    List (String × Option String) → Except BErr (List UploadItem)
  | [] => .ok []
  | (_, none) :: _ => .error .attributeError
  | (n, some p) :: rest =>
    (buildUploads est comp rest).map
      (fun items => ⟨n, p, pput_meta (est n) (some p) comp⟩ :: items)

/-- Walk-then-upload composition of `backup_incremental` on a resolved
newest-first ancestor chain. -/
def backupCore (cat : Catalog) (est : String → Nat) (comp : Option String)
    (chain : List String) : Except BErr (List UploadItem) :=
  match walkUp cat chain with
  | .error e => .error e
  | .ok tu => buildUploads est comp tu.reverse

/-- Model of `PairManager.backup_incremental`.  With no target name the
latest local snapshot is used (`get_latest`, a `SoftError` when there are
no locals); a named target that is not a local snapshot raises. -/
def backup_incremental (cat : Catalog) (zl : List String) (est : String → Nat)
    (comp : Option String) (snapName : Option String) : Except BErr (List UploadItem) :=
  match snapName with
  | none =>
    if zl.isEmpty then .error .softError
    else backupCore cat est comp zl.reverse
  | some n =>
    match chainToAux [] zl n with
    | none => .error .exception
    | some chain => backupCore cat est comp chain

/-- Pairs `(snapshot, local parent)` along a newest-first path that stops
just above a remotely-present ancestor `P`: the parent of the last path
element is `P` itself. -/
def pairsUpS : List String → String → List (String × String)
  | [], _ => []
  | [x], P => [(x, P)]
  | x :: y :: rest, P => (x, y) :: pairsUpS (y :: rest) P

/-- Pairs `(snapshot, optional local parent)` along a full newest-first
path whose oldest element is a chain root (parent `none`). -/
def pairsAll : List String → List (String × Option String)
  | [] => []
  | [x] => [(x, none)]
  | x :: y :: rest => (x, some y) :: pairsAll (y :: rest)

/-- The upload command produced for one collected snapshot. -/
def mkUploadItem (est : String → Nat) (comp : Option String)
    (np : String × String) : UploadItem :=
  ⟨np.1, np.2, pput_meta (est np.1) (some np.2) comp⟩

theorem walkUp_present (cat : Catalog) (name : String) (older : List String)
    (m : Meta) (h : cat.lookup name = some m) :
    walkUp cat (name :: older) =
      if is_healthy cat name m = .healthy then .ok [] else .error .integrityError := by
  cases older <;> simp only [walkUp, h]

theorem walkUp_root (cat : Catalog) (name : String) (h : cat.lookup name = none) :
    walkUp cat [name] = .ok [(name, none)] := by
  simp only [walkUp, h]

theorem walkUp_step (cat : Catalog) (name p : String) (tail : List String)
    (h : cat.lookup name = none) :
    walkUp cat (name :: p :: tail) =
      (walkUp cat (p :: tail)).map (fun tu => (name, some p) :: tu) := by
  conv_lhs => rw [walkUp]
  rw [h]

theorem walkUp_stops (cat : Catalog) (P : String) (mP : Meta) (front : List String)
    (hP : cat.lookup P = some mP) (hh : is_healthy cat P mP = .healthy) :
    ∀ segR : List String, (∀ n ∈ segR, cat.lookup n = none) →
      walkUp cat (segR ++ P :: front) =
        .ok ((pairsUpS segR P).map (fun np => (np.1, some np.2))) := by
  intro segR
  induction segR with
  | nil =>
    intro _
    rw [List.nil_append, walkUp_present cat P front mP hP, if_pos hh]
    rfl
  | cons x t ih =>
    intro habs
    have hx : cat.lookup x = none := habs x (List.mem_cons_self x t)
    cases t with
    | nil =>
      rw [List.cons_append, List.nil_append, walkUp_step cat x P front hx,
        walkUp_present cat P front mP hP, if_pos hh]
      rfl
    | cons y rest =>
      have ht : ∀ n ∈ y :: rest, cat.lookup n = none := fun n hn =>
        habs n (List.mem_cons_of_mem _ hn)
      have ih' := ih ht
      simp only [List.cons_append] at ih' ⊢
      rw [walkUp_step cat x y (rest ++ P :: front) hx, ih']
      rfl

theorem walkUp_all_absent (cat : Catalog) :
    ∀ chain : List String, (∀ n ∈ chain, cat.lookup n = none) →
      walkUp cat chain = .ok (pairsAll chain) := by
  intro chain
  induction chain with
  | nil => intro _; rfl
  | cons x t ih =>
    intro habs
    have hx : cat.lookup x = none := habs x (List.mem_cons_self x t)
    cases t with
    | nil => exact walkUp_root cat x hx
    | cons y rest =>
      have ht : ∀ n ∈ y :: rest, cat.lookup n = none := fun n hn =>
        habs n (List.mem_cons_of_mem _ hn)
      rw [walkUp_step cat x y rest hx, ih ht]
      rfl

theorem buildUploads_map_some (est : String → Nat) (comp : Option String) :
    ∀ l : List (String × String),
      buildUploads est comp (l.map (fun np => (np.1, some np.2))) =
        .ok (l.map (mkUploadItem est comp)) := by
  intro l
  induction l with
  | nil => rfl
  | cons np rest ih =>
    cases np with
    | mk n p =>
      simp only [List.map_cons, buildUploads, ih, Except.map]
      rfl

theorem pairsAll_snoc (x : String) :
    ∀ l : List String, ∃ init, pairsAll (l ++ [x]) = init ++ [(x, none)] := by
  intro l
  induction l with
  | nil => exact ⟨[], rfl⟩
  | cons a t ih =>
    rcases ih with ⟨init, hinit⟩
    cases ht : t ++ [x] with
    | nil => exact absurd ht (by simp)
    | cons b rest =>
      refine ⟨(a, some b) :: init, ?_⟩
      simp only [List.cons_append, ht, pairsAll]
      rw [← ht, hinit]

theorem chainToAux_shape (n : String) :
    ∀ (zl : List String) (acc chain : List String),
      chainToAux acc zl n = some chain → ∃ pre, chain = n :: pre := by
  intro zl
  induction zl with
  | nil => intro acc chain h; exact absurd h (by simp [chainToAux])
  | cons x rest ih =>
    intro acc chain h
    by_cases hx : x = n
    · rw [chainToAux, if_pos hx] at h
      exact ⟨acc, by rw [← Option.some.inj h, hx]⟩
    · rw [chainToAux, if_neg hx] at h
      exact ih _ _ h

/-- C4 counterexample.  Local chain with a single (root) snapshot `ds@z1`
and an empty remote catalog: no ancestor of the target is present remotely,
so the claim requires the chain including the root to be uploaded, but the
upload loop evaluates `z_snap.parent.name` on the parentless root and dies
with an `AttributeError`; nothing is uploaded. -/
theorem backup_incremental_root_fails :
    backup_incremental [] ["ds@z1"] (fun _ => 1) none (some "ds@z1") =
      .error .attributeError ∧
    ∀ items, backup_incremental [] ["ds@z1"] (fun _ => 1) none (some "ds@z1") ≠
      .ok items := by
  refine ⟨rfl, ?_⟩
  intro items h
  rw [(rfl : backup_incremental [] ["ds@z1"] (fun _ => 1) none (some "ds@z1") =
    .error .attributeError)] at h
  exact Except.noConfusion h

/-- C4 (amended).  Let the newest-first local ancestor path of target `T`
be `segR ++ P :: front` where every name in `segR` is absent remotely and
`P` is present remotely.  (1) If `P` is healthy, `backup_incremental`
uploads exactly the snapshots of `segR` in oldest-to-newest order, each
with an incremental reference to its local parent and with
`parent=<parent>` metadata.  (2) If `P` is unhealthy it raises
`IntegrityError` before running any send.  (3) (amendment) If no ancestor
of `T` is present remotely the call raises `AttributeError` on the
parentless chain root instead of uploading the chain: nothing is uploaded. -/
theorem backup_minimality :
    (∀ (cat : Catalog) (zl : List String) (est : String → Nat) (comp : Option String)
      (T P : String) (mP : Meta) (segR front : List String),
      chainToAux [] zl T = some (segR ++ P :: front) →
      (∀ n ∈ segR, cat.lookup n = none) →
      cat.lookup P = some mP →
      is_healthy cat P mP = .healthy →
      backup_incremental cat zl est comp (some T) =
        .ok ((pairsUpS segR P).reverse.map (mkUploadItem est comp))) ∧
    (∀ (cat : Catalog) (zl : List String) (est : String → Nat) (comp : Option String)
      (T P : String) (mP : Meta) (segR front : List String),
      chainToAux [] zl T = some (segR ++ P :: front) →
      (∀ n ∈ segR, cat.lookup n = none) →
      cat.lookup P = some mP →
      is_healthy cat P mP ≠ .healthy →
      backup_incremental cat zl est comp (some T) = .error .integrityError) ∧
    (∀ (cat : Catalog) (zl : List String) (est : String → Nat) (comp : Option String)
      (T : String) (chain : List String),
      chainToAux [] zl T = some chain →
      (∀ n ∈ chain, cat.lookup n = none) →
      backup_incremental cat zl est comp (some T) = .error .attributeError) := by
  refine ⟨?_, ?_, ?_⟩
  · intro cat zl est comp T P mP segR front hchain habs hP hh
    simp only [backup_incremental, hchain, backupCore,
      walkUp_stops cat P mP front hP hh segR habs]
    rw [← List.map_reverse, buildUploads_map_some]
  · intro cat zl est comp T P mP segR front hchain habs hP hh
    have hwalk : ∀ segR : List String, (∀ n ∈ segR, cat.lookup n = none) →
        walkUp cat (segR ++ P :: front) = .error .integrityError := by
      intro segR
      induction segR with
      | nil =>
        intro _
        rw [List.nil_append, walkUp_present cat P front mP hP, if_neg hh]
      | cons x t ih =>
        intro habs'
        have hx : cat.lookup x = none := habs' x (List.mem_cons_self x t)
        cases t with
        | nil =>
          rw [List.cons_append, List.nil_append, walkUp_step cat x P front hx,
            walkUp_present cat P front mP hP, if_neg hh]
          rfl
        | cons y rest =>
          have ht : ∀ n ∈ y :: rest, cat.lookup n = none := fun n hn =>
            habs' n (List.mem_cons_of_mem _ hn)
          have ih' := ih ht
          simp only [List.cons_append] at ih' ⊢
          rw [walkUp_step cat x y (rest ++ P :: front) hx, ih']
          rfl
    simp [backup_incremental, hchain, backupCore, hwalk segR habs]
  · intro cat zl est comp T chain hchain habs
    have hne : chain ≠ [] := by
      rcases chainToAux_shape T zl [] chain hchain with ⟨pre, hpre⟩
      rw [hpre]
      exact List.cons_ne_nil _ _
    rcases List.eq_nil_or_concat chain with hnil | ⟨l, x, hlx⟩
    · exact absurd hnil hne
    · have hlx' : chain = l ++ [x] := by simpa [List.concat_eq_append] using hlx
      subst hlx'
      rcases pairsAll_snoc x l with ⟨init, hinit⟩
      simp only [backup_incremental, hchain, backupCore,
        walkUp_all_absent cat (l ++ [x]) habs, hinit]
      simp [List.reverse_append, buildUploads]

/-- Witness for C4: a three-snapshot local chain `D@a, D@b, D@c` whose
oldest snapshot `D@a` is present remotely as a healthy full snapshot;
backing up `D@c` uploads `D@b` (parent `D@a`) then `D@c` (parent `D@b`). -/
theorem backup_minimality_witness :
    chainToAux [] ["D@a", "D@b", "D@c"] "D@c" =
      some (["D@c", "D@b"] ++ "D@a" :: []) ∧
    (∀ n ∈ ["D@c", "D@b"], List.lookup n [("D@a", mFull)] = none) ∧
    List.lookup "D@a" [("D@a", mFull)] = some mFull ∧
    is_healthy [("D@a", mFull)] "D@a" mFull = .healthy ∧
    backup_incremental [("D@a", mFull)] ["D@a", "D@b", "D@c"] (fun _ => 7) none
      (some "D@c") =
      .ok ((pairsUpS ["D@c", "D@b"] "D@a").reverse.map
        (mkUploadItem (fun _ => 7) none)) := by
  refine ⟨by decide, by decide, by decide, by decide, ?_⟩
  exact backup_minimality.1 [("D@a", mFull)] ["D@a", "D@b", "D@c"] (fun _ => 7) none
    "D@c" "D@a" mFull ["D@c", "D@b"] [] (by decide) (by decide) (by decide) (by decide)

/-! ### restore (snap.py lines 412-439)

`restore` splits the target name at `@`, refuses to touch a dataset that
already exists locally unless `--force` is given, then walks the remote
parent links collecting snapshots to restore (stopping early if a snapshot
already exists locally, raising `IntegrityError` on any unhealthy
snapshot, stopping after a full snapshot), and finally, oldest first, runs
one `zfs3backup_get <key> | [decompressor] | zfs recv [-F ] <name>`
pipeline per collected snapshot.  The decompressor is chosen from each
snapshot's own `compressor` metadata via the `COMPRESSORS` table.

The local side is modelled by two oracles: `zget name` tells whether a
local snapshot of that name exists (`ZFSSnapshotManager.get`) and
`dsExists d` whether dataset `d` exists (`dataset_exists`).  The walk
carries fuel `cat.length + 1`; on chains satisfying the claim's
hypotheses the fuel is never exhausted (shown in `restore_parent_first`),
matching the Python loop, which always terminates on such chains. -/

inductive RErr where
  | valueError
  | noSuchSnapshot
  | integrityError
  | attributeError
  | fuelOut
deriving DecidableEq

/-- Model of Python's `str.split(sep)` for a one-character separator,
acting on the character list. -/
def splitChar (sep : Char) : List Char → List (List Char)
  | [] => [[]]
  | c :: rest =>
    match splitChar sep rest with
    | [] => [[]]
    | grp :: grps => if c = sep then [] :: grp :: grps else (c :: grp) :: grps

/-- Python `snap_name.split('@')` as a list of strings. -/
def pySplit (s : String) (sep : Char) : List String :=
  (splitChar sep s.data).map String.mk

/-- The `COMPRESSORS` table (snap.py lines 31-38): label, compress command,
decompress command. -/
def COMPRESSORS : List (String × String × String) :=
  [("pigz1", "pigz -1 --blocksize 4096", "pigz -d"),
   ("pigz4", "pigz -4 --blocksize 4096", "pigz -d")]

/-- Model of `PairManager._decompress` (snap.py lines 336-344): prepend the
decompress command selected from the snapshot's own `compressor` metadata,
or leave the command alone when the label is absent or unknown. -/
def decompressCmd (s3comp : Option String) (cmd : String) : String :=
  match s3comp.bind (fun c => COMPRESSORS.lookup c) with
  | none => cmd
  | some cd => cd.2 ++ " | " ++ cmd

/-- The download/recv pipeline issued for one snapshot (the two commands
handed to `CommandExecutor.pipe`; the optional `pv` meter between them is
environment-dependent and not modelled). -/
def pipelineFor (pre : String) (force : Bool) (nm : String × Meta) : String × String :=
  ("zfs3backup_get " ++ pre ++ nm.1,
   decompressCmd nm.2.compressor ("zfs recv " ++ (if force then "-F " else "") ++ nm.1))

/-- The collection loop of `restore` (snap.py lines 421-433).  A `none`
parent on a non-full snapshot makes the next iteration dereference
`current_snap.name` on `None` (`attributeError`); the loop order is:
local-existence check, health check, collect, full check, step to parent. -/
def restoreWalk (cat : Catalog) (zget : String → Bool) :
    Nat → String → Meta → Except RErr (List (String × Meta))
  | 0, _, _ => .error .fuelOut
  | fuel + 1, name, m =>
    if zget name then .ok []
    else if is_healthy cat name m = .healthy then
      if m.isFull then .ok [(name, m)]
      else
        match parentResolve cat m with
        | none => .error .attributeError
        | some (pn, pm) =>
          (restoreWalk cat zget fuel pn pm).map (fun tr => (name, m) :: tr)
    else .error .integrityError

/-- Model of `PairManager.restore`.  The early `return` when the dataset
exists locally without `--force` issues no pipeline (`ok []`). -/
def restore (cat : Catalog) (zget : String → Bool) (dsExists : String → Bool)
    (pre : String) (snapName : String) (force : Bool) :
    Except RErr (List (String × String)) :=
  match pySplit snapName '@' with
  | [dataset, _] =>
    if !force && dsExists dataset then .ok []
    else
      match cat.lookup snapName with
      | none => .error .noSuchSnapshot
      | some m =>
        (restoreWalk cat zget (cat.length + 1) snapName m).map
          (fun tr => tr.reverse.map (pipelineFor pre force))
  | _ => .error .valueError

/-- Well-formed remote chain, newest-first: every element is listed in the
catalog, every element but the last is non-full and points at the next
element via its `parent` metadata, and the last element is full. -/
def chainLinked (cat : Catalog) : List (String × Meta) → Prop
  | [] => True
  | [(n, m)] => cat.lookup n = some m ∧ m.isFull = true
  | (n, m) :: (pn, pm) :: rest =>
      cat.lookup n = some m ∧ m.isFull = false ∧ m.parent = some pn ∧
        chainLinked cat ((pn, pm) :: rest)

theorem chainLinked_head_lookup (cat : Catalog) (n : String) (m : Meta)
    (rest : List (String × Meta)) (h : chainLinked cat ((n, m) :: rest)) :
    cat.lookup n = some m := by
  cases rest with
  | nil => exact h.1
  | cons q qs =>
    cases q with
    | mk pn pm => exact h.1

theorem chainLinked_lookup_all (cat : Catalog) :
    ∀ chain : List (String × Meta), chainLinked cat chain →
      ∀ p ∈ chain, cat.lookup p.1 = some p.2 := by
  intro chain
  induction chain with
  | nil => intro _ p hp; exact absurd hp (List.not_mem_nil p)
  | cons e rest ih =>
    intro hlink p hp
    cases e with
    | mk n m =>
      rcases List.mem_cons.mp hp with hpe | hpr
      · rw [hpe]
        exact chainLinked_head_lookup cat n m rest hlink
      · cases rest with
        | nil => exact absurd hpr (List.not_mem_nil p)
        | cons q qs =>
          cases q with
          | mk pn pm => exact ih hlink.2.2.2 p hpr

theorem lookup_mem_keys {cat : Catalog} {n : String} {m : Meta} :
    cat.lookup n = some m → n ∈ cat.map Prod.fst := by
  induction cat with
  | nil => intro h; simp [List.lookup] at h
  | cons e rest ih =>
    intro h
    cases e with
    | mk k v =>
      rw [List.lookup] at h
      simp only [List.map_cons]
      cases hk : (n == k) with
      | true =>
        have hnk : n = k := by simpa using hk
        rw [hnk]
        exact List.mem_cons_self _ _
      | false =>
        rw [hk] at h
        exact List.mem_cons_of_mem _ (ih h)

theorem restoreWalk_chain (cat : Catalog) (zget : String → Bool) :
    ∀ (rest : List (String × Meta)) (fuel : Nat) (n : String) (m : Meta),
      chainLinked cat ((n, m) :: rest) →
      (∀ p ∈ (n, m) :: rest, is_healthy cat p.1 p.2 = .healthy) →
      (∀ p ∈ (n, m) :: rest, zget p.1 = false) →
      rest.length < fuel →
      restoreWalk cat zget fuel n m = .ok ((n, m) :: rest) := by
  intro rest
  induction rest with
  | nil =>
    intro fuel n m hlink hhealthy hlocal hlen
    cases fuel with
    | zero => exact absurd hlen (by omega)
    | succ k =>
      have hz : zget n = false := hlocal (n, m) (List.mem_cons_self _ _)
      have hhe : is_healthy cat n m = .healthy :=
        hhealthy (n, m) (List.mem_cons_self _ _)
      simp [restoreWalk, hz, hhe, hlink.2]
  | cons q qs ih =>
    intro fuel n m hlink hhealthy hlocal hlen
    cases q with
    | mk pn pm =>
      cases fuel with
      | zero => exact absurd hlen (by omega)
      | succ k =>
        have hz : zget n = false := hlocal (n, m) (List.mem_cons_self _ _)
        have hhe : is_healthy cat n m = .healthy :=
          hhealthy (n, m) (List.mem_cons_self _ _)
        have hnotfull : m.isFull = false := hlink.2.1
        have hpar : m.parent = some pn := hlink.2.2.1
        have hlink' : chainLinked cat ((pn, pm) :: qs) := hlink.2.2.2
        have hplook : cat.lookup pn = some pm :=
          chainLinked_head_lookup cat pn pm qs hlink'
        have hres : parentResolve cat m = some (pn, pm) := by
          simp [parentResolve, hpar, hplook]
        have hrec := ih k pn pm hlink'
          (fun p hp => hhealthy p (List.mem_cons_of_mem _ hp))
          (fun p hp => hlocal p (List.mem_cons_of_mem _ hp))
          (by simp at hlen ⊢; omega)
        simp [restoreWalk, hz, hhe, hnotfull, hres, hrec, Except.map]

/-- C5.  On a healthy remote chain (newest-first list `chain` headed by the
target, linked by `parent` metadata down to a full snapshot) none of whose
members exists locally, with the target dataset absent locally,
`restore` issues exactly one pipeline per chain member in parent-first
(oldest-first) order: `chain.reverse.map (pipelineFor pre force)`.  The
first pipeline restored is the full root; each subsequent chain member
names the previously restored snapshot in its `parent` metadata (hypothesis
`chainLinked`); and each pipeline's decompressor is selected from that
snapshot's own `compressor` metadata (`pipelineFor` applies `decompressCmd
nm.2.compressor`). -/
theorem restore_parent_first (cat : Catalog) (zget dsEx : String → Bool)
    (pre snapName : String) (force : Bool) (d t : String) (m0 : Meta)
    (chain : List (String × Meta))
    (hsplit : pySplit snapName '@' = [d, t])
    (hds : dsEx d = false)
    (hhead : chain.head? = some (snapName, m0))
    (hlink : chainLinked cat chain)
    (hhealthy : ∀ p ∈ chain, is_healthy cat p.1 p.2 = .healthy)
    (hlocal : ∀ p ∈ chain, zget p.1 = false)
    (hnodup : (chain.map Prod.fst).Nodup) :
    restore cat zget dsEx pre snapName force =
      .ok (chain.reverse.map (pipelineFor pre force)) := by
  have hsub : chain.map Prod.fst ⊆ cat.map Prod.fst := by
    intro x hx
    rcases List.mem_map.mp hx with ⟨p, hp, hpx⟩
    rw [← hpx]
    exact lookup_mem_keys (chainLinked_lookup_all cat chain hlink p hp)
  have hlen : chain.length ≤ cat.length := by
    have := (hnodup.subperm hsub).length_le
    simpa using this
  cases chain with
  | nil => exact absurd hhead (by simp)
  | cons e rest =>
    have he : e = (snapName, m0) := Option.some.inj hhead
    subst he
    have hlook : cat.lookup snapName = some m0 :=
      chainLinked_head_lookup cat snapName m0 rest hlink
    have hwalk := restoreWalk_chain cat zget rest (cat.length + 1) snapName m0
      hlink hhealthy hlocal (by simp at hlen; omega)
    simp [restore, hsplit, hds, hlook, hwalk, Except.map]

/-- Witness for C5: spec scenario S6.  Remote has full `D@a` and increment
`D@b` (parent `D@a`), both compressed with `pigz1`; the local side is
empty.  `restore D@b` issues `get D@a | pigz -d | recv D@a` then
`get D@b | pigz -d | recv D@b`. -/
theorem restore_parent_first_witness :
    restore [("D@a", ⟨none, some "true", none, some "pigz1"⟩),
             ("D@b", ⟨none, none, some "D@a", some "pigz1"⟩)]
        (fun _ => false) (fun _ => false) "zfs3backup/" "D@b" false =
      .ok ([("D@b", (⟨none, none, some "D@a", some "pigz1"⟩ : Meta)),
            ("D@a", (⟨none, some "true", none, some "pigz1"⟩ : Meta))].reverse.map
        (pipelineFor "zfs3backup/" false)) := by
  exact restore_parent_first
    [("D@a", ⟨none, some "true", none, some "pigz1"⟩),
     ("D@b", ⟨none, none, some "D@a", some "pigz1"⟩)]
    (fun _ => false) (fun _ => false) "zfs3backup/" "D@b" false "D" "b"
    ⟨none, none, some "D@a", some "pigz1"⟩
    [("D@b", ⟨none, none, some "D@a", some "pigz1"⟩),
     ("D@a", ⟨none, some "true", none, some "pigz1"⟩)]
    (by decide) rfl rfl ⟨rfl, rfl, rfl, rfl, rfl⟩
    (by decide) (fun p _ => rfl) (by decide)

/-! ### StreamHandler (pput.py lines 80-103)

`StreamHandler.get_chunk` loops reading `chunk_size - len(_partial_chunk)`
bytes, accumulating into `_partial_chunk`; an empty read sets
`_eof_reached`; the buffer is emitted when it reaches `chunk_size` or at
EOF (in which case the emitted final chunk may be shorter, including
empty).  After EOF the loop body is skipped and the method returns `None`.

The underlying stream is a finite byte string `data` plus a read-size
oracle: the `t`-th read returns at most `rsz t + 1` bytes (always at least
one byte while data remains, zero bytes exactly at end-of-stream), which
covers short reads from pipes.  The `while` loop consumes at least one
byte of `data` per iteration except the final EOF iteration, so
`data.length + 1` fuel is never exhausted. -/

structure SH where
  data : List Nat
  rsz : Nat → Nat
  t : Nat
  chunk_size : Nat
  buf : List Nat
  eof_reached : Bool

/-- Model of the `finished` property (pput.py lines 87-89). -/
def SH.finished (s : SH) : Bool :=
  s.eof_reached && s.buf.isEmpty

/-- One `input_stream.read(chunk_size - len(partial))` call: at most the
requested number of bytes, at most `rsz t + 1` bytes, empty iff no data
remains (or nothing was requested). -/
def readOnce (s : SH) : List Nat :=
  s.data.take (min (s.chunk_size - s.buf.length) (s.rsz s.t + 1))

/-- Fuel-indexed body of `StreamHandler.get_chunk`. -/
def getChunkGo : Nat → SH → Option (List Nat) × SH
  | 0, s => (none, s)
  | fuel + 1, s =>
    if s.eof_reached then (none, s)
    else
      if (readOnce s).length = 0 then
        (some s.buf, ⟨s.data, s.rsz, s.t + 1, s.chunk_size, [], true⟩)
      else
        if (s.buf ++ readOnce s).length = s.chunk_size then
          (some (s.buf ++ readOnce s),
            ⟨s.data.drop (readOnce s).length, s.rsz, s.t + 1, s.chunk_size, [], false⟩)
        else
          getChunkGo fuel
            ⟨s.data.drop (readOnce s).length, s.rsz, s.t + 1, s.chunk_size,
              s.buf ++ readOnce s, false⟩

/-- Model of `StreamHandler.get_chunk`: returns the emitted chunk (`none`
once EOF was reported) together with the updated handler state. -/
def get_chunk (s : SH) : Option (List Nat) × SH :=
  getChunkGo (s.data.length + 1) s

/-- Clamping the count of a `take` at the list length changes nothing. -/
theorem take_min_length (l : List Nat) (k : Nat) :
    l.take (min k l.length) = l.take k := by
  rcases le_or_lt k l.length with h | h
  · rw [Nat.min_eq_left h]
  · rw [Nat.min_eq_right (Nat.le_of_lt h), List.take_length,
      List.take_of_length_le (Nat.le_of_lt h)]

/-- One unfolding of `getChunkGo` from a non-EOF state. -/
theorem getChunkGo_step (k : Nat) (s : SH) (heof : s.eof_reached = false) :
    getChunkGo (k + 1) s =
      if (readOnce s).length = 0 then
        (some s.buf, ⟨s.data, s.rsz, s.t + 1, s.chunk_size, [], true⟩)
      else if (s.buf ++ readOnce s).length = s.chunk_size then
        (some (s.buf ++ readOnce s),
          ⟨s.data.drop (readOnce s).length, s.rsz, s.t + 1, s.chunk_size, [], false⟩)
      else
        getChunkGo k ⟨s.data.drop (readOnce s).length, s.rsz, s.t + 1, s.chunk_size,
          s.buf ++ readOnce s, false⟩ := by
  rw [getChunkGo, if_neg (by simp [heof])]

/-- Characterisation of one `get_chunk` call from a non-EOF state with a
proper partial buffer: if at least a full chunk remains (buffer plus data),
exactly `chunk_size - buf.length` bytes are consumed and a full chunk is
emitted; otherwise everything is consumed, EOF is recorded, and the
(possibly empty) remainder is emitted. -/
theorem getChunkGo_spec (rsz : Nat → Nat) (C : Nat) :
    ∀ (fuel : Nat) (d : List Nat) (t : Nat) (buf : List Nat),
      buf.length < C → d.length < fuel →
      (C ≤ buf.length + d.length →
        ∃ t2, getChunkGo fuel ⟨d, rsz, t, C, buf, false⟩ =
          (some (buf ++ d.take (C - buf.length)),
            ⟨d.drop (C - buf.length), rsz, t2, C, [], false⟩)) ∧
      (buf.length + d.length < C →
        ∃ t2, getChunkGo fuel ⟨d, rsz, t, C, buf, false⟩ =
          (some (buf ++ d), ⟨[], rsz, t2, C, [], true⟩)) := by
  intro fuel
  induction fuel with
  | zero =>
    intro d t buf hb hd
    exact absurd hd (by omega)
  | succ k ih =>
    intro d t buf hb hd
    by_cases hdn : d = []
    · subst hdn
      constructor
      · intro hge
        simp at hge
        omega
      · intro _
        refine ⟨t + 1, ?_⟩
        simp [getChunkGo, readOnce]
    · have hdlen : 1 ≤ d.length := by
        cases d with
        | nil => exact absurd rfl hdn
        | cons x xs => simp
      rw [getChunkGo_step k ⟨d, rsz, t, C, buf, false⟩ rfl]
      dsimp only
      set r := readOnce ⟨d, rsz, t, C, buf, false⟩ with hr
      have hwant : 1 ≤ C - buf.length := by omega
      have hrne : 1 ≤ r.length := by
        rw [hr]
        simp only [readOnce, List.length_take]
        omega
      have hrtake : d.take r.length = r := by
        rw [hr]
        simp only [readOnce, List.length_take]
        exact take_min_length d _
      have hrle_want : r.length ≤ C - buf.length := by
        rw [hr]
        simp only [readOnce, List.length_take]
        omega
      have hrle_d : r.length ≤ d.length := by
        rw [hr]
        simp only [readOnce, List.length_take]
        omega
      clear_value r
      rw [if_neg (by omega)]
      by_cases hfull : (buf ++ r).length = C
      · have hrl : r.length = C - buf.length := by
          rw [List.length_append] at hfull
          omega
        rw [if_pos hfull]
        constructor
        · intro _
          refine ⟨t + 1, ?_⟩
          rw [← hrl, hrtake]
        · intro hlt
          rw [List.length_append, hrl] at hfull
          omega
      · rw [if_neg hfull]
        have hbuf2 : (buf ++ r).length < C := by
          rw [List.length_append] at hfull ⊢
          omega
        have hd2 : (d.drop r.length).length < k := by
          rw [List.length_drop]
          omega
        have hstep := ih (d.drop r.length) (t + 1) (buf ++ r) hbuf2 hd2
        have htot : (buf ++ r).length + (d.drop r.length).length =
            buf.length + d.length := by
          rw [List.length_append, List.length_drop]
          omega
        constructor
        · intro hge
          rcases hstep.1 (by omega) with ⟨t2, ht2⟩
          refine ⟨t2, ?_⟩
          rw [ht2]
          have hsplit : buf ++ d.take (C - buf.length) =
              (buf ++ r) ++ (d.drop r.length).take (C - (buf ++ r).length) := by
            rw [List.append_assoc, List.length_append]
            congr 1
            rw [show C - buf.length = r.length + (C - (buf.length + r.length)) from
              by omega, List.take_add, hrtake]
          have hdrop : (d.drop r.length).drop (C - (buf ++ r).length) =
              d.drop (C - buf.length) := by
            rw [List.drop_drop, List.length_append]
            congr 1
            omega
          rw [hsplit, hdrop]
        · intro hlt
          rcases hstep.2 (by omega) with ⟨t2, ht2⟩
          refine ⟨t2, ?_⟩
          rw [ht2]
          have hjoin : buf ++ d = (buf ++ r) ++ d.drop r.length := by
            rw [List.append_assoc]
            congr 1
            conv_lhs => rw [← List.take_append_drop r.length d]
            rw [hrtake]
          rw [hjoin]

/-- Repeatedly call `get_chunk`, collecting the emitted chunks until the
handler reports EOF (`none`) or the fuel runs out. -/
def runChunks : Nat → SH → List (List Nat) × SH
  | 0, s => ([], s)
  | fuel + 1, s =>
    match get_chunk s with
    | (none, s2) => ([], s2)
    | (some c, s2) => (c :: (runChunks fuel s2).1, (runChunks fuel s2).2)

/-- Fresh `StreamHandler` over byte string `S` (pput.py lines 81-85). -/
def initSH (S : List Nat) (C : Nat) (rsz : Nat → Nat) : SH :=
  ⟨S, rsz, 0, C, [], false⟩

/-- A full consumer run: `⌊L/C⌋` full chunks, one final short (possibly
empty) chunk, and one EOF report, so `L / C + 2` calls always suffice. -/
def chunkRun (S : List Nat) (C : Nat) (rsz : Nat → Nat) : List (List Nat) × SH :=
  runChunks (S.length / C + 2) (initSH S C rsz)

/-- The chunk sequence a `StreamHandler` emits for stream `S`. -/
def emittedChunks (S : List Nat) (C : Nat) (rsz : Nat → Nat) : List (List Nat) :=
  (chunkRun S C rsz).1

/-- Reference chunking of a byte string: `⌊L/C⌋` chunks of exactly `C`
bytes followed by the remainder chunk of `L mod C` bytes (empty when `C`
divides `L`, including `L = 0`). -/
def canonChunks (C : Nat) (S : List Nat) : List (List Nat) :=
  if 0 < C ∧ C ≤ S.length then S.take C :: canonChunks C (S.drop C) else [S]
termination_by S.length
decreasing_by
  rw [List.length_drop]
  omega

theorem canonChunks_ne_nil (C : Nat) (S : List Nat) : canonChunks C S ≠ [] := by
  unfold canonChunks
  split <;> simp

theorem getLast?_cons_of_ne_nil {α : Type} (a : α) (l : List α) (h : l ≠ []) :
    (a :: l).getLast? = l.getLast? := by
  cases l with
  | nil => exact absurd rfl h
  | cons b t => rw [List.getLast?_cons_cons]

theorem canonChunks_props (C : Nat) (hC : 1 ≤ C) :
    ∀ (n : Nat) (S : List Nat), S.length ≤ n →
      (canonChunks C S).flatten = S ∧
      (∀ c ∈ (canonChunks C S).dropLast, c.length = C) ∧
      (canonChunks C S).getLast? = some (S.drop (C * (S.length / C))) := by
  intro n
  induction n with
  | zero =>
    intro S hS
    have hnil : S = [] := List.eq_nil_of_length_eq_zero (by omega)
    subst hnil
    have hunf : canonChunks C ([] : List Nat) = [[]] := by
      unfold canonChunks
      rw [if_neg (fun hcon => by simp at hcon; omega)]
    simp [hunf]
  | succ n ih =>
    intro S hS
    by_cases hge : C ≤ S.length
    · have hunf : canonChunks C S = S.take C :: canonChunks C (S.drop C) := by
        conv_lhs => unfold canonChunks
        rw [if_pos (And.intro (by omega) hge)]
      have ihd := ih (S.drop C) (by rw [List.length_drop]; omega)
      refine ⟨?_, ?_, ?_⟩
      · rw [hunf, List.flatten_cons, ihd.1, List.take_append_drop]
      · intro c hc
        rw [hunf, List.dropLast_cons_of_ne_nil (canonChunks_ne_nil C (S.drop C))] at hc
        rcases List.mem_cons.mp hc with hce | hcm
        · rw [hce, List.length_take]
          omega
        · exact ihd.2.1 c hcm
      · rw [hunf, getLast?_cons_of_ne_nil _ _ (canonChunks_ne_nil C (S.drop C)),
          ihd.2.2, List.drop_drop, List.length_drop]
        have hdiv : S.length / C = (S.length - C) / C + 1 :=
          Nat.div_eq_sub_div (by omega) hge
        rw [hdiv, Nat.mul_succ, Nat.add_comm]
    · have hunf : canonChunks C S = [S] := by
        unfold canonChunks
        rw [if_neg (fun hcon => hge hcon.2)]
      have hz : S.length / C = 0 := Nat.div_eq_of_lt (by omega)
      simp [hunf, hz]

theorem runChunks_spec (C : Nat) (rsz : Nat → Nat) (hC : 1 ≤ C) :
    ∀ (fuel : Nat) (S : List Nat) (t : Nat),
      S.length / C + 2 ≤ fuel →
      ∃ t2, runChunks fuel ⟨S, rsz, t, C, [], false⟩ =
        (canonChunks C S, ⟨[], rsz, t2, C, [], true⟩) := by
  intro fuel
  induction fuel with
  | zero =>
    intro S t h
    exact absurd h (Nat.not_succ_le_zero _)
  | succ k ih =>
    intro S t hfuel
    have hspec := getChunkGo_spec rsz C (S.length + 1) S t [] (by simp; omega) (by omega)
    by_cases hge : C ≤ S.length
    · rcases hspec.1 (by simpa using hge) with ⟨t2, ht2⟩
      have hgc : get_chunk ⟨S, rsz, t, C, [], false⟩ =
          (some (S.take C), ⟨S.drop C, rsz, t2, C, [], false⟩) := by
        rw [get_chunk]
        simpa using ht2
      have hfuel2 : (S.drop C).length / C + 2 ≤ k := by
        rw [List.length_drop]
        have hdiv : S.length / C = (S.length - C) / C + 1 :=
          Nat.div_eq_sub_div (by omega) hge
        omega
      rcases ih (S.drop C) t2 hfuel2 with ⟨t3, ht3⟩
      refine ⟨t3, ?_⟩
      simp only [runChunks]
      rw [hgc]
      simp only [ht3]
      have hunf : canonChunks C S = S.take C :: canonChunks C (S.drop C) := by
        conv_lhs => unfold canonChunks
        rw [if_pos (And.intro (by omega) hge)]
      rw [hunf]
    · rcases hspec.2 (by simp; omega) with ⟨t2, ht2⟩
      have hgc : get_chunk ⟨S, rsz, t, C, [], false⟩ =
          (some S, ⟨[], rsz, t2, C, [], true⟩) := by
        rw [get_chunk]
        simpa using ht2
      refine ⟨t2, ?_⟩
      simp only [runChunks]
      rw [hgc]
      have heof : runChunks k ⟨[], rsz, t2, C, [], true⟩ =
          ([], ⟨[], rsz, t2, C, [], true⟩) := by
        cases k with
        | zero => rfl
        | succ k2 => simp [runChunks, get_chunk, getChunkGo]
      simp only [heof]
      have hunf : canonChunks C S = [S] := by
        unfold canonChunks
        rw [if_neg (fun hcon => hge hcon.2)]
      rw [hunf]

/-- C2 counterexample.  With `S = [0, 0]` and `C = 2` (so `C` divides the
stream length) the handler emits the full chunk `[0, 0]` followed by an
empty final chunk, contradicting the claim that every emitted chunk has
length between 1 and `C`. -/
theorem chunking_last_chunk_empty :
    emittedChunks [0, 0] 2 (fun _ => 0) = [[0, 0], []] ∧
    ¬ (∀ c ∈ emittedChunks [0, 0] 2 (fun _ => 0), 1 ≤ c.length ∧ c.length ≤ 2) := by
  constructor
  · decide
  · decide

/-- C2 (amended).  For every stream `S`, chunk size `C ≥ 1` and read-size
oracle, the emitted chunk sequence is exactly `canonChunks C S`:
concatenating the chunks in emission order yields `S`, every chunk except
the last has length exactly `C`, and the final chunk is the remainder of
length `S.length mod C` — which lies in `[0, C)` and is empty exactly when
`C` divides `S.length` (rather than in `[1, C]` as claimed).  After the
final chunk, `get_chunk` reports EOF (`none`) on every subsequent call and
the handler is `finished`. -/
theorem chunking_lossless_ordered (S : List Nat) (C : Nat) (rsz : Nat → Nat)
    (hC : 1 ≤ C) :
    emittedChunks S C rsz = canonChunks C S ∧
    (emittedChunks S C rsz).flatten = S ∧
    (∀ c ∈ (emittedChunks S C rsz).dropLast, c.length = C) ∧
    (emittedChunks S C rsz).getLast? = some (S.drop (C * (S.length / C))) ∧
    (S.drop (C * (S.length / C))).length = S.length % C ∧
    S.length % C < C ∧
    get_chunk (chunkRun S C rsz).2 = (none, (chunkRun S C rsz).2) ∧
    (chunkRun S C rsz).2.finished = true := by
  rcases runChunks_spec C rsz hC (S.length / C + 2) S 0 le_rfl with ⟨t2, ht2⟩
  have hpair : chunkRun S C rsz = (canonChunks C S, ⟨[], rsz, t2, C, [], true⟩) := ht2
  have hprops := canonChunks_props C hC S.length S le_rfl
  have hrem : (S.drop (C * (S.length / C))).length = S.length % C := by
    rw [List.length_drop]
    have h1 : C * (S.length / C) + S.length % C = S.length := Nat.div_add_mod S.length C
    calc S.length - C * (S.length / C)
        = (C * (S.length / C) + S.length % C) - C * (S.length / C) := by rw [h1]
      _ = S.length % C := Nat.add_sub_cancel_left _ _
  refine ⟨?_, ?_, ?_, ?_, hrem, Nat.mod_lt _ (by omega), ?_, ?_⟩
  · rw [emittedChunks, hpair]
  · rw [emittedChunks, hpair]
    exact hprops.1
  · rw [emittedChunks, hpair]
    exact hprops.2.1
  · rw [emittedChunks, hpair]
    exact hprops.2.2
  · rw [hpair]
    rfl
  · rw [hpair]
    rfl

/-- Witness for C2 (amended): a one-byte stream with chunk size 5. -/
theorem chunking_lossless_ordered_witness :
    emittedChunks [7] 5 (fun _ => 0) = canonChunks 5 [7] ∧
    (emittedChunks [7] 5 (fun _ => 0)).flatten = [7] := by
  have h := chunking_lossless_ordered [7] 5 (fun _ => 0) (by decide)
  exact ⟨h.1, h.2.1⟩

/-! ### Upload supervisor (pput.py lines 125-287 and 355-390)

`UploadSupervisor.main_loop` initiates the multipart upload, starts the
workers, and loops while chunks are pending or the reader is not finished:
each iteration checks worker liveness (raising `WorkerCrashed` if any
worker died), drains available results without blocking (raising a failed
result's traceback), reads the next chunk and, if it is truthy (non-empty),
enqueues it with a 1-based index.  `_finish_upload` then aborts (and raises
`UploadException`) when no parts were produced, or completes the upload
with the parts sorted by part number; finally the recorded results are
sorted and the composite etag is computed.

The thread scheduler is modelled by a `Sched`: `alive t` tells whether all
workers pass the `is_alive` poll of iteration `t`, and `arrivals t` lists
the `Result` messages drained from the inbox in iteration `t` (workers run
concurrently, so these are free inputs of the model).  The loop itself
becomes the fuel-indexed `stepLoop`; `fuelOut` marks runs whose schedule
needs more iterations than the supplied fuel (the Python loop simply keeps
spinning).  `pending` is an `Int` because `_pending_chunks -= 1` on a
spurious result can drive it negative in Python.  The state records the
trace of multipart calls (`initiate` / `complete` / `abort`) and the jobs
sent to the workers. -/

structure ResultMsg where
  success : Bool
  index : Nat
  md5 : String
  etag : String
deriving DecidableEq

inductive MPUCall where
  | initiate
  | complete (parts : List (Nat × String))
  | abort
deriving DecidableEq

inductive Outcome where
  | success (etag : String)
  | uploadErr (msg : String)
  | workerCrashed
  | resultRaised
  | fuelOut
deriving DecidableEq

structure SupSt where
  sh : SH
  pending : Int
  results : List (Nat × String × String)
  chunkIndex : Nat
  sent : List (Nat × List Nat)
  calls : List MPUCall

structure Sched where
  alive : Nat → Bool
  arrivals : Nat → List ResultMsg

/-- Model of `_handle_results` / `_handle_result` (pput.py lines 235-252):
process each drained result in arrival order; a successful result is
recorded as `(index, md5, etag)` and decrements `_pending_chunks`; a failed
result re-raises its traceback (`false`). -/
def handleResults : List ResultMsg → SupSt → Bool × SupSt
  | [], st => (true, st)
  | r :: rest, st =>
    if r.success then
      handleResults rest
        ⟨st.sh, st.pending - 1, st.results ++ [(r.index, r.md5, r.etag)],
          st.chunkIndex, st.sent, st.calls⟩
    else (false, st)

/-- Python `list.sort()` comparison on the `(index, md5, etag)` result
tuples: lexicographic tuple order. -/
def tupLe (a b : Nat × String × String) : Bool :=
  decide (a.1 < b.1) || (decide (a.1 = b.1) &&
    (decide (a.2.1 < b.2.1) || (decide (a.2.1 = b.2.1) && decide (a.2.2 ≤ b.2.2))))

/-- Comparison used by `sorted(..., key=lambda x: x['PartNumber'])`. -/
def partLe (a b : Nat × String) : Bool :=
  decide (a.1 ≤ b.1)

/-- Stable insertion into a sorted list (model of Python's stable sort). -/
def insertLe {α : Type} (le : α → α → Bool) (a : α) : List α → List α
  | [] => [a]
  | b :: bs => if le a b then a :: b :: bs else b :: insertLe le a bs

/-- Stable sort by a boolean comparison (model of Python's `list.sort` /
`sorted`, which are stable; on the distinct part indices arising here any
correct sort produces the same list). -/
def sortBy {α : Type} (le : α → α → Bool) : List α → List α
  | [] => []
  | x :: xs => insertLe le x (sortBy le xs)

/-- Model of `_finish_upload` (pput.py lines 221-233) together with the
tail of `main_loop` (lines 284-286): abort and raise on zero parts,
otherwise complete with the parts sorted by part number, then sort the
results and compute the composite etag. -/
def finish_upload (md5f : List Nat → List Nat) (st : SupSt) : Outcome × SupSt :=
  if st.results = [] then
    (.uploadErr "Error: Can\x27t upload zero bytes!",
      ⟨st.sh, st.pending, st.results, st.chunkIndex, st.sent, st.calls ++ [.abort]⟩)
  else
    (.success (multipart_etag md5f
        ((sortBy tupLe st.results).map (fun r => r.2.1))),
      ⟨st.sh, st.pending, sortBy tupLe st.results, st.chunkIndex, st.sent,
        st.calls ++ [.complete (sortBy partLe (st.results.map (fun r => (r.1, r.2.2))))]⟩)

/-- The chunk-dispatch tail of one loop iteration (pput.py lines 279-283):
a truthy (non-`None`, non-empty) chunk gets the next 1-based index and is
enqueued; `None` or `b""` is skipped. -/
def sendChunk (oc : Option (List Nat)) (sh2 : SH) (st : SupSt) : SupSt :=
  match oc with
  | some c =>
    if c.isEmpty then ⟨sh2, st.pending, st.results, st.chunkIndex, st.sent, st.calls⟩
    else ⟨sh2, st.pending + 1, st.results, st.chunkIndex + 1,
      st.sent ++ [(st.chunkIndex + 1, c)], st.calls⟩
  | none => ⟨sh2, st.pending, st.results, st.chunkIndex, st.sent, st.calls⟩

/-- Fuel-indexed model of the `while` loop of `main_loop` (pput.py lines
273-286); `t` counts iterations and indexes the schedule. -/
def stepLoop (md5f : List Nat → List Nat) (sched : Sched) :
    Nat → Nat → SupSt → Outcome × SupSt
  | 0, _, st => (.fuelOut, st)
  | fuel + 1, t, st =>
    if st.pending ≠ 0 ∨ st.sh.finished = false then
      if sched.alive t = false then (.workerCrashed, st)
      else if (handleResults (sched.arrivals t) st).1 = false then
        (.resultRaised, (handleResults (sched.arrivals t) st).2)
      else
        stepLoop md5f sched fuel (t + 1)
          (sendChunk (get_chunk ((handleResults (sched.arrivals t) st).2).sh).1
            (get_chunk ((handleResults (sched.arrivals t) st).2).sh).2
            ((handleResults (sched.arrivals t) st).2))
    else finish_upload md5f st

/-- Model of `UploadSupervisor.main_loop` on input stream `S`: the
multipart upload is initiated (`_begin_upload`), the workers are started,
and the loop runs. -/
def runSupervisor (md5f : List Nat → List Nat) (sched : Sched) (fuel : Nat)
    (S : List Nat) (C : Nat) (rsz : Nat → Nat) : Outcome × SupSt :=
  stepLoop md5f sched fuel 0 ⟨initSH S C rsz, 0, [], 0, [], [.initiate]⟩

/-- Exit code of the upload tool for a given `main_loop` outcome: `main`
(pput.py lines 382-388) returns 1 on `UploadException` and `None` on
success.  Modelled from the spec: the console-script wrapper that invokes
`sys.exit(main())` is part of the tool's packaging and not under `src/`;
it maps `1` to exit code 1 and `None` to 0, and an uncaught exception also
terminates the interpreter with a non-zero code. -/
def mainExitCode : Outcome → Nat
  | .success _ => 0
  | .uploadErr _ => 1
  | .workerCrashed => 1
  | .resultRaised => 1
  | .fuelOut => 1

def isAbort : MPUCall → Bool
  | .abort => true
  | _ => false

def isComplete : MPUCall → Bool
  | .complete _ => true
  | _ => false

theorem handleResults_calls (arr : List ResultMsg) :
    ∀ st : SupSt, ((handleResults arr st).2).calls = st.calls := by
  induction arr with
  | nil => intro st; rfl
  | cons r rest ih =>
    intro st
    by_cases hs : r.success
    · simp only [handleResults, if_pos hs]
      rw [ih]
    · simp only [handleResults, if_neg hs]

theorem handleResults_sent (arr : List ResultMsg) :
    ∀ st : SupSt, ((handleResults arr st).2).sent = st.sent := by
  induction arr with
  | nil => intro st; rfl
  | cons r rest ih =>
    intro st
    by_cases hs : r.success
    · simp only [handleResults, if_pos hs]
      rw [ih]
    · simp only [handleResults, if_neg hs]

theorem sendChunk_calls (oc : Option (List Nat)) (sh2 : SH) (st : SupSt) :
    (sendChunk oc sh2 st).calls = st.calls := by
  cases oc with
  | none => rfl
  | some c =>
    by_cases hc : c.isEmpty <;> simp [sendChunk, hc]

theorem sendChunk_sent (oc : Option (List Nat)) (sh2 : SH) (st : SupSt) :
    ∀ p ∈ (sendChunk oc sh2 st).sent, p ∈ st.sent ∨ p.2 ≠ ([] : List Nat) := by
  intro p hp
  cases oc with
  | none => exact Or.inl hp
  | some c =>
    by_cases hc : c.isEmpty
    · simp only [sendChunk, if_pos hc] at hp
      exact Or.inl hp
    · simp only [sendChunk, if_neg hc] at hp
      rcases List.mem_append.mp hp with hin | hnew
      · exact Or.inl hin
      · right
        have : p = (st.chunkIndex + 1, c) := by simpa using hnew
        rw [this]
        simpa [List.isEmpty_iff] using hc

theorem finish_upload_sent (md5f : List Nat → List Nat) (st : SupSt) :
    ((finish_upload md5f st).2).sent = st.sent := by
  by_cases hres : st.results = [] <;> simp [finish_upload, hres]

theorem stepLoop_calls (md5f : List Nat → List Nat) (sched : Sched) :
    ∀ (fuel t : Nat) (st : SupSt), st.calls = [MPUCall.initiate] →
      (((stepLoop md5f sched fuel t st).1 = .fuelOut ∨
        (stepLoop md5f sched fuel t st).1 = .workerCrashed ∨
        (stepLoop md5f sched fuel t st).1 = .resultRaised) →
        ((stepLoop md5f sched fuel t st).2).calls = [MPUCall.initiate]) ∧
      (∀ e, (stepLoop md5f sched fuel t st).1 = .uploadErr e →
        ((stepLoop md5f sched fuel t st).2).calls =
          [MPUCall.initiate, MPUCall.abort]) ∧
      (∀ e, (stepLoop md5f sched fuel t st).1 = .success e →
        ∃ parts, ((stepLoop md5f sched fuel t st).2).calls =
          [MPUCall.initiate, MPUCall.complete parts]) := by
  intro fuel
  induction fuel with
  | zero =>
    intro t st hc
    exact ⟨fun _ => hc, fun e he => Outcome.noConfusion he,
      fun e he => Outcome.noConfusion he⟩
  | succ k ih =>
    intro t st hc
    by_cases hcond : st.pending ≠ 0 ∨ st.sh.finished = false
    · by_cases hal : sched.alive t = false
      · have hstep : stepLoop md5f sched (k + 1) t st = (.workerCrashed, st) := by
          rw [stepLoop, if_pos hcond, if_pos hal]
        rw [hstep]
        exact ⟨fun _ => hc, fun e he => Outcome.noConfusion he,
          fun e he => Outcome.noConfusion he⟩
      · by_cases hhr : (handleResults (sched.arrivals t) st).1 = false
        · have hstep : stepLoop md5f sched (k + 1) t st =
              (.resultRaised, (handleResults (sched.arrivals t) st).2) := by
            rw [stepLoop, if_pos hcond, if_neg hal, if_pos hhr]
          rw [hstep]
          refine ⟨fun _ => ?_, fun e he => Outcome.noConfusion he,
            fun e he => Outcome.noConfusion he⟩
          rw [handleResults_calls]
          exact hc
        · have hstep : stepLoop md5f sched (k + 1) t st =
              stepLoop md5f sched k (t + 1)
                (sendChunk (get_chunk ((handleResults (sched.arrivals t) st).2).sh).1
                  (get_chunk ((handleResults (sched.arrivals t) st).2).sh).2
                  ((handleResults (sched.arrivals t) st).2)) := by
            rw [stepLoop, if_pos hcond, if_neg hal, if_neg hhr]
          have hc2 : (sendChunk (get_chunk ((handleResults (sched.arrivals t) st).2).sh).1
              (get_chunk ((handleResults (sched.arrivals t) st).2).sh).2
              ((handleResults (sched.arrivals t) st).2)).calls = [MPUCall.initiate] := by
            rw [sendChunk_calls, handleResults_calls]
            exact hc
          rw [hstep]
          exact ih (t + 1) _ hc2
    · have hstep : stepLoop md5f sched (k + 1) t st = finish_upload md5f st := by
        rw [stepLoop, if_neg hcond]
      rw [hstep]
      by_cases hres : st.results = []
      · have hfin : finish_upload md5f st =
            (.uploadErr "Error: Can\x27t upload zero bytes!",
              ⟨st.sh, st.pending, st.results, st.chunkIndex, st.sent,
                st.calls ++ [.abort]⟩) := by
          rw [finish_upload, if_pos hres]
        rw [hfin]
        refine ⟨fun hx => ?_, fun e he => ?_, fun e he => Outcome.noConfusion he⟩
        · rcases hx with hx | hx | hx <;> exact Outcome.noConfusion hx
        · rw [hc]
          rfl
      · have hfin : finish_upload md5f st =
            (.success (multipart_etag md5f
                ((sortBy tupLe st.results).map (fun r => r.2.1))),
              ⟨st.sh, st.pending, sortBy tupLe st.results, st.chunkIndex, st.sent,
                st.calls ++ [.complete (sortBy partLe
                  (st.results.map (fun r => (r.1, r.2.2))))]⟩) := by
          rw [finish_upload, if_neg hres]
        rw [hfin]
        refine ⟨fun hx => ?_, fun e he => Outcome.noConfusion he, fun e he => ?_⟩
        · rcases hx with hx | hx | hx <;> exact Outcome.noConfusion hx
        · refine ⟨sortBy partLe (st.results.map (fun r => (r.1, r.2.2))), ?_⟩
          rw [hc]
          rfl

/-- C1 counterexample.  A run in which a worker is dead at the first
liveness poll (with one byte of input pending): `main_loop` raises
`WorkerCrashed` with only `initiate` in the multipart call trace — neither
`CompleteMultipartUpload` nor `AbortMultipartUpload` is invoked, although
`initiate` succeeded, contradicting "never neither" and "an abort is
attempted before the error propagates". -/
theorem upload_crash_skips_abort :
    (runSupervisor (fun _ => [0]) ⟨fun _ => false, fun _ => []⟩ 1 [1] 1
        (fun _ => 0)).1 = .workerCrashed ∧
    ((runSupervisor (fun _ => [0]) ⟨fun _ => false, fun _ => []⟩ 1 [1] 1
        (fun _ => 0)).2).calls = [MPUCall.initiate] ∧
    ((runSupervisor (fun _ => [0]) ⟨fun _ => false, fun _ => []⟩ 1 [1] 1
        (fun _ => 0)).2).calls.countP isAbort = 0 ∧
    ((runSupervisor (fun _ => [0]) ⟨fun _ => false, fun _ => []⟩ 1 [1] 1
        (fun _ => 0)).2).calls.countP isComplete = 0 := by
  refine ⟨?_, ?_, ?_, ?_⟩ <;> decide

/-- C1 (amended).  In every run of the supervisor the multipart call trace
starts with the (successful) `initiate`; a run that finishes its loop
normally makes exactly one finalising call — `abort` when it raises the
zero-bytes `UploadException`, `complete` when it returns an etag; and on
any abnormal exit (`WorkerCrashed`, or a failed result's re-raised
traceback) neither `complete` nor `abort` is invoked — no abort is
attempted before the error propagates (contrary to the claim). -/
theorem upload_finalizer_calls (md5f : List Nat → List Nat) (sched : Sched)
    (fuel : Nat) (S : List Nat) (C : Nat) (rsz : Nat → Nat)
    (oc : Outcome) (stF : SupSt)
    (hrun : runSupervisor md5f sched fuel S C rsz = (oc, stF)) :
    stF.calls.head? = some MPUCall.initiate ∧
    (∀ e, oc = .success e →
      stF.calls.countP isComplete = 1 ∧ stF.calls.countP isAbort = 0) ∧
    (∀ e, oc = .uploadErr e →
      stF.calls.countP isComplete = 0 ∧ stF.calls.countP isAbort = 1) ∧
    ((oc = .workerCrashed ∨ oc = .resultRaised ∨ oc = .fuelOut) →
      stF.calls.countP isComplete = 0 ∧ stF.calls.countP isAbort = 0) := by
  have h := stepLoop_calls md5f sched fuel 0
    ⟨initSH S C rsz, 0, [], 0, [], [MPUCall.initiate]⟩ rfl
  rw [runSupervisor] at hrun
  rw [hrun] at h
  obtain ⟨h1, h2, h3⟩ := h
  cases oc with
  | success e =>
    rcases h3 e rfl with ⟨parts, hp⟩
    refine ⟨by rw [hp]; rfl, fun e' _ => ?_, fun e' he' => Outcome.noConfusion he',
      fun hx => ?_⟩
    · rw [hp]
      simp [List.countP_cons, isAbort, isComplete]
    · rcases hx with hx | hx | hx <;> exact Outcome.noConfusion hx
  | uploadErr e =>
    have hp := h2 e rfl
    refine ⟨by rw [hp]; rfl, fun e' he' => Outcome.noConfusion he', fun e' _ => ?_,
      fun hx => ?_⟩
    · rw [hp]
      simp [List.countP_cons, isAbort, isComplete]
    · rcases hx with hx | hx | hx <;> exact Outcome.noConfusion hx
  | workerCrashed =>
    have hp := h1 (Or.inr (Or.inl rfl))
    refine ⟨by rw [hp]; rfl, fun e' he' => Outcome.noConfusion he',
      fun e' he' => Outcome.noConfusion he', fun _ => ?_⟩
    rw [hp]
    simp [List.countP_cons, isAbort, isComplete]
  | resultRaised =>
    have hp := h1 (Or.inr (Or.inr rfl))
    refine ⟨by rw [hp]; rfl, fun e' he' => Outcome.noConfusion he',
      fun e' he' => Outcome.noConfusion he', fun _ => ?_⟩
    rw [hp]
    simp [List.countP_cons, isAbort, isComplete]
  | fuelOut =>
    have hp := h1 (Or.inl rfl)
    refine ⟨by rw [hp]; rfl, fun e' he' => Outcome.noConfusion he',
      fun e' he' => Outcome.noConfusion he', fun _ => ?_⟩
    rw [hp]
    simp [List.countP_cons, isAbort, isComplete]

/-- Abstract MD5 instance used by concrete runs: a constant digest. -/
def md5c : List Nat → List Nat := fun _ => [0]

/-- Schedule of a clean one-part run: workers always alive, the single
(correct) worker result arrives in iteration 1. -/
def schedOne : Sched :=
  ⟨fun _ => true, fun t => if t = 1 then [⟨true, 1, toHexStr (md5c [7]), "e1"⟩] else []⟩

/-- Witness for C1 (amended): the clean one-part run completes exactly
once and never aborts. -/
theorem upload_finalizer_calls_witness :
    ((runSupervisor md5c schedOne 3 [7] 5 (fun _ => 0)).2).calls.countP isComplete = 1 ∧
    ((runSupervisor md5c schedOne 3 [7] 5 (fun _ => 0)).2).calls.countP isAbort = 0 := by
  have h := upload_finalizer_calls md5c schedOne 3 [7] 5 (fun _ => 0)
    (runSupervisor md5c schedOne 3 [7] 5 (fun _ => 0)).1
    (runSupervisor md5c schedOne 3 [7] 5 (fun _ => 0)).2 rfl
  exact h.2.1 "\x2700-1\x27" (by decide)

/-- C8.  On empty input (with live workers and hence no results), the
coordinator reads a single empty chunk, never enqueues a job, and
`_finish_upload` aborts the multipart upload — `complete` is never called —
raising `UploadException` whose message contains "Can't upload zero bytes";
`main` catches it and returns 1, so the tool's exit code is non-zero. -/
theorem zero_byte_abort (md5f : List Nat → List Nat) (sched : Sched)
    (fuel C : Nat) (rsz : Nat → Nat)
    (halive : ∀ t, sched.alive t = true)
    (harr : ∀ t, sched.arrivals t = [])
    (hfuel : 2 ≤ fuel) :
    (runSupervisor md5f sched fuel [] C rsz).1 =
      .uploadErr "Error: Can\x27t upload zero bytes!" ∧
    ((runSupervisor md5f sched fuel [] C rsz).2).calls =
      [MPUCall.initiate, MPUCall.abort] ∧
    (∀ parts, MPUCall.complete parts ∉
      ((runSupervisor md5f sched fuel [] C rsz).2).calls) ∧
    "Error: Can\x27t upload zero bytes!" =
      "Error: " ++ "Can\x27t upload zero bytes" ++ "!" ∧
    mainExitCode (runSupervisor md5f sched fuel [] C rsz).1 = 1 := by
  obtain ⟨k, rfl⟩ : ∃ k, fuel = k + 2 := ⟨fuel - 2, by omega⟩
  have hrun : runSupervisor md5f sched (k + 2) [] C rsz =
      (.uploadErr "Error: Can\x27t upload zero bytes!",
        ⟨⟨[], rsz, 1, C, [], true⟩, 0, [], 0, [], [.initiate, .abort]⟩) := by
    rw [runSupervisor]
    rw [show k + 2 = (k + 1) + 1 from rfl, stepLoop]
    rw [if_pos (by simp [initSH, SH.finished])]
    rw [if_neg (by simp [halive 0])]
    rw [harr 0]
    rw [if_neg (by simp [handleResults])]
    have hgc : get_chunk ((handleResults [] ⟨initSH [] C rsz, 0, [], 0, [],
        [MPUCall.initiate]⟩).2).sh = (some [], ⟨[], rsz, 1, C, [], true⟩) := by
      simp [handleResults, initSH, get_chunk, getChunkGo, readOnce]
    rw [hgc]
    rw [show (sendChunk (some [], (⟨[], rsz, 1, C, [], true⟩ : SH)).1
        (some [], (⟨[], rsz, 1, C, [], true⟩ : SH)).2
        ((handleResults [] ⟨initSH [] C rsz, 0, [], 0, [], [MPUCall.initiate]⟩).2)) =
      ⟨⟨[], rsz, 1, C, [], true⟩, 0, [], 0, [], [MPUCall.initiate]⟩ from by
        simp [sendChunk, handleResults, initSH]]
    rw [stepLoop]
    rw [if_neg (by simp [SH.finished])]
    rw [finish_upload, if_pos rfl]
    rfl
  refine ⟨?_, ?_, ?_, by decide, ?_⟩
  · rw [hrun]
  · rw [hrun]
  · intro parts hmem
    rw [hrun] at hmem
    simp at hmem
  · rw [hrun]
    rfl

/-- Schedule with live workers and an empty inbox at every iteration. -/
def schedIdle : Sched := ⟨fun _ => true, fun _ => []⟩

/-- Witness for C8: empty input, chunk size 5, minimal fuel. -/
theorem zero_byte_abort_witness :
    (runSupervisor md5c schedIdle 2 [] 5 (fun _ => 0)).1 =
      .uploadErr "Error: Can\x27t upload zero bytes!" ∧
    mainExitCode (runSupervisor md5c schedIdle 2 [] 5 (fun _ => 0)).1 = 1 := by
  have h := zero_byte_abort md5c schedIdle 2 5 (fun _ => 0)
    (fun _ => rfl) (fun _ => rfl) le_rfl
  exact ⟨h.1, h.2.2.2.2⟩

theorem stepLoop_sent_nonempty (md5f : List Nat → List Nat) (sched : Sched) :
    ∀ (fuel t : Nat) (st : SupSt), (∀ p ∈ st.sent, p.2 ≠ ([] : List Nat)) →
      ∀ p ∈ ((stepLoop md5f sched fuel t st).2).sent, p.2 ≠ ([] : List Nat) := by
  intro fuel
  induction fuel with
  | zero =>
    intro t st h p hp
    exact h p hp
  | succ k ih =>
    intro t st h
    by_cases hcond : st.pending ≠ 0 ∨ st.sh.finished = false
    · by_cases hal : sched.alive t = false
      · have hstep : stepLoop md5f sched (k + 1) t st = (.workerCrashed, st) := by
          rw [stepLoop, if_pos hcond, if_pos hal]
        rw [hstep]
        exact h
      · by_cases hhr : (handleResults (sched.arrivals t) st).1 = false
        · have hstep : stepLoop md5f sched (k + 1) t st =
              (.resultRaised, (handleResults (sched.arrivals t) st).2) := by
            rw [stepLoop, if_pos hcond, if_neg hal, if_pos hhr]
          rw [hstep]
          intro p hp
          rw [handleResults_sent] at hp
          exact h p hp
        · have hstep : stepLoop md5f sched (k + 1) t st =
              stepLoop md5f sched k (t + 1)
                (sendChunk (get_chunk ((handleResults (sched.arrivals t) st).2).sh).1
                  (get_chunk ((handleResults (sched.arrivals t) st).2).sh).2
                  ((handleResults (sched.arrivals t) st).2)) := by
            rw [stepLoop, if_pos hcond, if_neg hal, if_neg hhr]
          rw [hstep]
          refine ih (t + 1) _ ?_
          intro p hp
          rcases sendChunk_sent _ _ _ p hp with hin | hne
          · rw [handleResults_sent] at hin
            exact h p hin
          · exact hne
    · have hstep : stepLoop md5f sched (k + 1) t st = finish_upload md5f st := by
        rw [stepLoop, if_neg hcond]
      rw [hstep]
      intro p hp
      rw [finish_upload_sent] at hp
      exact h p hp

/-- C10.  (1) On a zero-length input stream the first `get_chunk` call
returns an empty chunk (`some []`, not the EOF signal `None`); only after
that the handler is `finished` and subsequent calls report EOF.  (2) In
every supervisor run the `if chunk:` guard drops `None` and empty chunks,
so no job carrying a zero-length chunk is ever enqueued to the workers. -/
theorem empty_chunk_never_enqueued :
    (∀ (C : Nat) (rsz : Nat → Nat),
      (get_chunk (initSH [] C rsz)).1 = some [] ∧
      ((get_chunk (initSH [] C rsz)).2).finished = true ∧
      (get_chunk ((get_chunk (initSH [] C rsz)).2)).1 = none) ∧
    (∀ (md5f : List Nat → List Nat) (sched : Sched) (fuel : Nat) (S : List Nat)
      (C : Nat) (rsz : Nat → Nat) (p : Nat × List Nat),
      p ∈ ((runSupervisor md5f sched fuel S C rsz).2).sent →
      p.2 ≠ ([] : List Nat)) := by
  constructor
  · intro C rsz
    refine ⟨?_, ?_, ?_⟩ <;> simp [get_chunk, initSH, getChunkGo, readOnce, SH.finished]
  · intro md5f sched fuel S C rsz p hp
    exact stepLoop_sent_nonempty md5f sched fuel 0 _ (by intro q hq; simp at hq) p hp

/-- Witness for C10: in the clean one-part run the only job enqueued is
the non-empty chunk `[7]`. -/
theorem empty_chunk_never_enqueued_witness :
    ((runSupervisor md5c schedOne 3 [7] 5 (fun _ => 0)).2).sent = [(1, [7])] ∧
    ((1, [7]) : Nat × List Nat).2 ≠ ([] : List Nat) := by
  refine ⟨by decide, ?_⟩
  exact empty_chunk_never_enqueued.2 md5c schedOne 3 [7] 5 (fun _ => 0) (1, [7])
    (by decide)

/-! ### Composite-etag determinism (C3)

The etag returned by `main_loop` is `multipart_etag` over the md5 column
of the results sorted by Python tuple order.  Because the part indices are
distinct, any permutation of the correct per-part results sorts back to
the same canonical list, so the etag is a function of the chunk sequence
alone. -/

theorem insertLe_perm {α : Type} (le : α → α → Bool) (a : α) :
    ∀ l : List α, (insertLe le a l).Perm (a :: l) := by
  intro l
  induction l with
  | nil => exact List.Perm.refl _
  | cons b bs ih =>
    by_cases hab : le a b
    · rw [insertLe, if_pos hab]
    · rw [insertLe, if_neg hab]
      exact (ih.cons b).trans (List.Perm.swap a b bs)

theorem sortBy_perm {α : Type} (le : α → α → Bool) :
    ∀ l : List α, (sortBy le l).Perm l := by
  intro l
  induction l with
  | nil => exact List.Perm.refl _
  | cons x xs ih =>
    exact (insertLe_perm le x (sortBy le xs)).trans (ih.cons x)

theorem insertLe_sorted {α : Type} (le : α → α → Bool)
    (htot : ∀ a b, le a b = false → le b a = true)
    (htrans : ∀ a b c, le a b = true → le b c = true → le a c = true) (a : α) :
    ∀ l, List.Pairwise (fun x y => le x y = true) l →
      List.Pairwise (fun x y => le x y = true) (insertLe le a l) := by
  intro l
  induction l with
  | nil => intro _; exact List.pairwise_singleton _ _
  | cons b bs ih =>
    intro hp
    rcases List.pairwise_cons.mp hp with ⟨hb, hbs⟩
    by_cases hab : le a b
    · rw [insertLe, if_pos hab]
      refine List.pairwise_cons.mpr ⟨?_, hp⟩
      intro x hx
      rcases List.mem_cons.mp hx with hxb | hxbs
      · rw [hxb]
        exact hab
      · exact htrans a b x hab (hb x hxbs)
    · have hba : le b a = true := htot a b (by simpa using hab)
      rw [insertLe, if_neg hab]
      refine List.pairwise_cons.mpr ⟨?_, ih hbs⟩
      intro x hx
      have hx2 : x = a ∨ x ∈ bs := by
        have := (insertLe_perm le a bs).mem_iff.mp hx
        simpa using this
      rcases hx2 with hxa | hxbs
      · rw [hxa]
        exact hba
      · exact hb x hxbs

theorem sortBy_sorted {α : Type} (le : α → α → Bool)
    (htot : ∀ a b, le a b = false → le b a = true)
    (htrans : ∀ a b c, le a b = true → le b c = true → le a c = true) :
    ∀ l : List α, List.Pairwise (fun x y => le x y = true) (sortBy le l) := by
  intro l
  induction l with
  | nil => exact List.Pairwise.nil
  | cons x xs ih => exact insertLe_sorted le htot htrans x (sortBy le xs) ih

theorem sorted_perm_eq {α : Type} (le : α → α → Bool)
    (hanti : ∀ a b, le a b = true → le b a = true → a = b)
    (l₁ l₂ : List α) (hp : l₁.Perm l₂)
    (h₁ : List.Pairwise (fun x y => le x y = true) l₁)
    (h₂ : List.Pairwise (fun x y => le x y = true) l₂) : l₁ = l₂ := by
  haveI : IsAntisymm α (fun x y => le x y = true) := ⟨hanti⟩
  exact List.eq_of_perm_of_sorted hp h₁ h₂

theorem tupLe_iff (a b : Nat × String × String) :
    tupLe a b = true ↔
      a.1 < b.1 ∨ (a.1 = b.1 ∧
        (a.2.1 < b.2.1 ∨ (a.2.1 = b.2.1 ∧ a.2.2 ≤ b.2.2))) := by
  simp [tupLe, Bool.or_eq_true, Bool.and_eq_true, decide_eq_true_eq]

theorem tupLe_total : ∀ a b, tupLe a b = false → tupLe b a = true := by
  intro a b h
  have h' : ¬ (tupLe a b = true) := by rw [h]; simp
  rw [tupLe_iff] at h'
  push_neg at h'
  rw [tupLe_iff]
  rcases Nat.lt_trichotomy a.1 b.1 with h1 | h1 | h1
  · exact absurd h1 (not_lt.mpr h'.1)
  · have h2 := h'.2 h1
    right
    refine ⟨h1.symm, ?_⟩
    rcases lt_trichotomy a.2.1 b.2.1 with hs | hs | hs
    · exact absurd hs (not_lt.mpr h2.1)
    · exact Or.inr ⟨hs.symm, (h2.2 hs).le⟩
    · exact Or.inl hs
  · exact Or.inl h1

theorem tupLe_trans :
    ∀ a b c, tupLe a b = true → tupLe b c = true → tupLe a c = true := by
  intro a b c hab hbc
  rw [tupLe_iff] at hab hbc ⊢
  rcases hab with h1 | ⟨h1, h2⟩
  · rcases hbc with g1 | ⟨g1, g2⟩
    · exact Or.inl (h1.trans g1)
    · exact Or.inl (g1 ▸ h1)
  · rcases hbc with g1 | ⟨g1, g2⟩
    · exact Or.inl (h1 ▸ g1)
    · right
      refine ⟨h1.trans g1, ?_⟩
      rcases h2 with s1 | ⟨s1, s2⟩
      · rcases g2 with t1 | ⟨t1, t2⟩
        · exact Or.inl (s1.trans t1)
        · exact Or.inl (t1 ▸ s1)
      · rcases g2 with t1 | ⟨t1, t2⟩
        · exact Or.inl (s1 ▸ t1)
        · exact Or.inr ⟨s1.trans t1, s2.trans t2⟩

theorem tupLe_antisymm :
    ∀ a b, tupLe a b = true → tupLe b a = true → a = b := by
  intro a b hab hba
  rw [tupLe_iff] at hab hba
  rcases hab with h1 | ⟨h1, h2⟩
  · rcases hba with g1 | ⟨g1, g2⟩
    · exact absurd (h1.trans g1) (lt_irrefl _)
    · exact absurd (g1 ▸ h1) (lt_irrefl _)
  · rcases hba with g1 | ⟨g1, g2⟩
    · exact absurd (h1 ▸ g1) (lt_irrefl _)
    · rcases h2 with s1 | ⟨s1, s2⟩
      · rcases g2 with t1 | ⟨t1, t2⟩
        · exact absurd (s1.trans t1) (lt_irrefl _)
        · exact absurd (t1 ▸ s1) (lt_irrefl _)
      · rcases g2 with t1 | ⟨t1, t2⟩
        · exact absurd (s1 ▸ t1) (lt_irrefl _)
        · have hfst : a.1 = b.1 := h1
          have hsnd : a.2.1 = b.2.1 := s1
          have hthd : a.2.2 = b.2.2 := le_antisymm s2 t2
          exact Prod.ext hfst (Prod.ext hsnd hthd)

/-- Correct worker results for a chunk sequence, indexed from `i`: for
each chunk, `UploadWorker.upload_part` records the hex md5 of the chunk
bytes (pput.py lines 134-149), and the store's etag for the part is the
free input `etags`. -/
def canonRes (md5f : List Nat → List Nat) (etags : Nat → String) :
    Nat → List (List Nat) → List (Nat × String × String)
  | _, [] => []
  | i, c :: cs => (i, toHexStr (md5f c), etags i) :: canonRes md5f etags (i + 1) cs

theorem canonRes_key_ge (md5f : List Nat → List Nat) (etags : Nat → String) :
    ∀ (cs : List (List Nat)) (i : Nat) (p : Nat × String × String),
      p ∈ canonRes md5f etags i cs → i ≤ p.1 := by
  intro cs
  induction cs with
  | nil => intro i p hp; exact absurd hp (List.not_mem_nil p)
  | cons c cs ih =>
    intro i p hp
    rcases List.mem_cons.mp hp with hph | hpt
    · rw [hph]
    · exact Nat.le_of_succ_le (ih (i + 1) p hpt)

theorem canonRes_sorted (md5f : List Nat → List Nat) (etags : Nat → String) :
    ∀ (cs : List (List Nat)) (i : Nat),
      List.Pairwise (fun x y => tupLe x y = true) (canonRes md5f etags i cs) := by
  intro cs
  induction cs with
  | nil => intro i; exact List.Pairwise.nil
  | cons c cs ih =>
    intro i
    refine List.pairwise_cons.mpr ⟨?_, ih (i + 1)⟩
    intro p hp
    rw [tupLe_iff]
    exact Or.inl (Nat.lt_of_succ_le (canonRes_key_ge md5f etags cs (i + 1) p hp))

theorem canonRes_md5_col (md5f : List Nat → List Nat) (etags : Nat → String) :
    ∀ (cs : List (List Nat)) (i : Nat),
      (canonRes md5f etags i cs).map (fun r => r.2.1) =
        cs.map (fun c => toHexStr (md5f c)) := by
  intro cs
  induction cs with
  | nil => intro i; rfl
  | cons c cs ih =>
    intro i
    simp only [canonRes, List.map_cons, ih (i + 1)]

/-- The composite etag as a function of the chunk sequence alone:
`'<hex md5 of the concatenated raw chunk digests>-<chunk count>'`. -/
def compositeOfChunks (md5f : List Nat → List Nat)
    (chunks : List (List Nat)) : String :=
  "\x27" ++ toHexStr (md5f (chunks.map md5f).flatten) ++ "-" ++
    toString chunks.length ++ "\x27"

theorem stepLoop_success_shape (md5f : List Nat → List Nat) (sched : Sched) :
    ∀ (fuel t : Nat) (st : SupSt) (e : String) (stF : SupSt),
      stepLoop md5f sched fuel t st = (.success e, stF) →
      ∃ rs, stF.results = sortBy tupLe rs ∧
        e = multipart_etag md5f ((sortBy tupLe rs).map (fun r => r.2.1)) := by
  intro fuel
  induction fuel with
  | zero =>
    intro t st e stF h
    exact absurd (congrArg Prod.fst h) (by simp [stepLoop])
  | succ k ih =>
    intro t st e stF h
    by_cases hcond : st.pending ≠ 0 ∨ st.sh.finished = false
    · by_cases hal : sched.alive t = false
      · rw [stepLoop, if_pos hcond, if_pos hal] at h
        exact absurd (congrArg Prod.fst h) (by simp)
      · by_cases hhr : (handleResults (sched.arrivals t) st).1 = false
        · rw [stepLoop, if_pos hcond, if_neg hal, if_pos hhr] at h
          exact absurd (congrArg Prod.fst h) (by simp)
        · rw [stepLoop, if_pos hcond, if_neg hal, if_neg hhr] at h
          exact ih (t + 1) _ e stF h
    · rw [stepLoop, if_neg hcond] at h
      by_cases hres : st.results = []
      · rw [finish_upload, if_pos hres] at h
        exact absurd (congrArg Prod.fst h) (by simp)
      · rw [finish_upload, if_neg hres] at h
        refine ⟨st.results, ?_, ?_⟩
        · have h2 := congrArg Prod.snd h
          simp only at h2
          rw [← h2]
        · have he := congrArg Prod.fst h
          simp only at he
          exact (Outcome.success.inj he).symm

/-- C3.  For every run of the supervisor that succeeds with etag `e`, if
the recorded results are some permutation — any worker-completion order —
of the correct per-part results for the 1-indexed chunk sequence `chunks`
(hex md5 of each chunk, arbitrary store etags), then
`e = '<hex md5 of concatenated raw chunk md5s>-<n>'` with `n` the number
of parts: a deterministic function of the chunk sequence alone. -/
theorem composite_etag_deterministic (md5f : List Nat → List Nat) (sched : Sched)
    (fuel : Nat) (S : List Nat) (C : Nat) (rsz : Nat → Nat) (etags : Nat → String)
    (chunks : List (List Nat)) (e : String) (stF : SupSt)
    (hvalid : ∀ bs : List Nat, ∀ b ∈ md5f bs, b < 256)
    (hrun : runSupervisor md5f sched fuel S C rsz = (.success e, stF))
    (hres : stF.results.Perm (canonRes md5f etags 1 chunks)) :
    e = compositeOfChunks md5f chunks := by
  rw [runSupervisor] at hrun
  rcases stepLoop_success_shape md5f sched fuel 0 _ e stF hrun with ⟨rs, hrs, he⟩
  have hperm : (sortBy tupLe rs).Perm (canonRes md5f etags 1 chunks) := by
    rw [← hrs]
    exact hres
  have heq : sortBy tupLe rs = canonRes md5f etags 1 chunks :=
    sorted_perm_eq tupLe tupLe_antisymm _ _ hperm
      (sortBy_sorted tupLe tupLe_total tupLe_trans rs)
      (canonRes_sorted md5f etags chunks 1)
  rw [he, heq, canonRes_md5_col]
  rw [multipart_etag, compositeOfChunks]
  have hmap : (chunks.map (fun c => toHexStr (md5f c))).map a2b_hex =
      chunks.map md5f := by
    rw [List.map_map]
    apply List.map_congr_left
    intro c _
    exact a2b_hex_toHexStr (hvalid c)
  rw [hmap, List.length_map]

/-- Witness for C3: the clean one-part run of chunk `[7]` returns exactly
the composite etag of that chunk sequence. -/
theorem composite_etag_deterministic_witness :
    (∀ bs : List Nat, ∀ b ∈ md5c bs, b < 256) ∧
    "\x2700-1\x27" = compositeOfChunks md5c [[7]] := by
  have hvalid : ∀ bs : List Nat, ∀ b ∈ md5c bs, b < 256 := by
    intro bs b hb
    simp [md5c] at hb
    omega
  refine ⟨hvalid, ?_⟩
  have hrun : runSupervisor md5c schedOne 3 [7] 5 (fun _ => 0) =
      (.success "\x2700-1\x27",
        (runSupervisor md5c schedOne 3 [7] 5 (fun _ => 0)).2) := by
    have h1 : (runSupervisor md5c schedOne 3 [7] 5 (fun _ => 0)).1 =
        .success "\x2700-1\x27" := by decide
    rw [← h1]
  exact composite_etag_deterministic md5c schedOne 3 [7] 5 (fun _ => 0)
    (fun _ => "e1") [[7]] "\x2700-1\x27"
    (runSupervisor md5c schedOne 3 [7] 5 (fun _ => 0)).2 hvalid hrun
    (by have : ((runSupervisor md5c schedOne 3 [7] 5 (fun _ => 0)).2).results =
          canonRes md5c (fun _ => "e1") 1 [[7]] := by decide
        rw [this])

end Zfs3backup
